import Mathlib

set_option maxRecDepth 100000

/-!
Verification of the BULKEMAIL repository's tracking / auto-reply /
fragment-processing core (`bulk_email_sender_manual_login.py`) against its
natural-language specification.

The Python code is shallowly embedded: dictionaries become association
lists, the Flask `/track` handler and the background workers become pure
state-transformers, and the string-processing helpers (`str.replace`,
`str.strip`, the `re` patterns used by `_extract_body_fragment`) are
translated into executable functions on `List Char`.
-/

namespace BulkEmail

/-! ### Association lists: the embedding of Python dicts -/

/-- Python `d.get(k)` on a dict embedded as an association list. -/
def alookup {β : Type} : List (String × β) → String → Option β
  | [], _ => none
  | (k', v) :: rest, k => if k' = k then some v else alookup rest k

/-- Python `d[k] = v`: replace the binding in place, or append a new one. -/
def aset {β : Type} : List (String × β) → String → β → List (String × β)
  | [], k, v => [(k, v)]
  | (k', v') :: rest, k, v =>
    if k' = k then (k, v) :: rest else (k', v') :: aset rest k v

/-! ### Python string primitives

`str.strip` and `str.replace`, translated to executable functions on
`List Char`.  `replaceFuel` carries an explicit fuel argument (always
instantiated with the list length) so that it is structurally recursive
and computes inside the kernel. -/

/-- The whitespace class of Python `str.strip` / regex `\s` (ASCII part). -/
def isPySpace (c : Char) : Bool :=
  c = ' ' || c = '\t' || c = '\n' || c = '\r' || c = '\x0b' || c = '\x0c'

/-- Python `s.strip()` on a character list. -/
def stripL (l : List Char) : List Char :=
  ((l.dropWhile isPySpace).reverse.dropWhile isPySpace).reverse

/-- Python `s.strip()` on a `String`. -/
def pyStripS (s : String) : String := ⟨stripL s.data⟩

/-- One left-to-right scan of Python `s.replace(old, new)`: at each position,
if `old` occurs there, emit `new` and skip over `old`; otherwise keep the
character.  `fuel` bounds the recursion depth. -/
def replaceFuel (old new : List Char) : Nat → List Char → List Char
  | _, [] => []
  | 0, l => l
  | fuel + 1, c :: rest =>
    if old.isPrefixOf (c :: rest) then
      new ++ replaceFuel old new fuel (List.drop (old.length - 1) rest)
    else
      c :: replaceFuel old new fuel rest

/-- Python `s.replace(old, new)` for a nonempty pattern `old` (every call
site in the source passes a nonempty literal; Python's empty-pattern
behaviour is never exercised and is modelled as the identity). -/
def pyReplaceL (old new l : List Char) : List Char :=
  if old = [] then l else replaceFuel old new l.length l

/-- Python `s.replace(old, new)` on `String`s. -/
def pyRep (s old new : String) : String := ⟨pyReplaceL old.data new.data s.data⟩

/-! ### The regex patterns of `_extract_body_fragment`

Each pattern used by the source (`<body[^>]*>(.*?)</body\s*>`,
`(?is)<!doctype[^>]*>`, `(?is)</?html[^>]*>`, `(?is)</?head[^>]*>`,
`(?is)<meta[^>]*>`, `(?is)<title[^>]*>.*?</title\s*>`) is translated to a
deterministic scanner: `[^>]*>` matches up to the first `>` or fails, the
lazy `(.*?)` takes the earliest possible close, and `re.search` /
`re.sub` try successive start positions left to right. -/

/-- Case-insensitive literal prefix test (`re.IGNORECASE`); the pattern is
given in lowercase. -/
def ciPrefix (pat l : List Char) : Bool :=
  pat.isPrefixOf ((l.take pat.length).map Char.toLower)

/-- Match `<pre…[^>]*>` at the head of `l`, returning the matched length:
the literal `pre`, then everything up to and including the first `>`
(no match when no `>` follows). -/
def tagMatch (pre : List Char) (l : List Char) : Option Nat :=
  if ciPrefix pre l then
    match (l.drop pre.length).findIdx? fun c => c = '>' with
    | some i => some (pre.length + i + 1)
    | none => none
  else none

/-- Match `</name\s*>` at the head of `l`, returning the matched length. -/
def closeTag (name : List Char) (l : List Char) : Option Nat :=
  if ciPrefix ('<' :: '/' :: name) l then
    let rest := l.drop (name.length + 2)
    let w := (rest.takeWhile isPySpace).length
    match rest.drop w with
    | c :: _ => if c = '>' then some (name.length + 2 + w + 1) else none
    | [] => none
  else none

/-- Lazy `(.*?)` up to the first position where `cl` matches: returns the
skipped content, or `none` when `cl` never matches. -/
def lazyContent (cl : List Char → Option Nat) : List Char → Option (List Char)
  | [] => if (cl []).isSome then some [] else none
  | c :: rest =>
    if (cl (c :: rest)).isSome then some []
    else (lazyContent cl rest).map fun t => c :: t

/-- Lazy `.*?` up to and including the first match of `cl`: returns the
total matched length. -/
def lazyLen (cl : List Char → Option Nat) : List Char → Option Nat
  | [] => cl []
  | c :: rest =>
    match cl (c :: rest) with
    | some k => some k
    | none => (lazyLen cl rest).map fun t => t + 1

/-- The full-pattern attempt of `<body[^>]*>(.*?)</body\s*>` at the head of
`l`: the opening tag, then the lazy content up to a closing tag. -/
def bodyAt (l : List Char) : Option (List Char) :=
  match tagMatch "<body".data l with
  | none => none
  | some k => lazyContent (closeTag "body".data) (l.drop k)

/-- `re.search` of the body pattern: try successive start positions. -/
def bodySearch : List Char → Option (List Char)
  | [] => none
  | c :: rest =>
    match bodyAt (c :: rest) with
    | some content => some content
    | none => bodySearch rest

/-- `re.sub(pattern, "", s)`: scan left to right, deleting every match of
`m` (a matcher returning the matched length, always positive for the
matchers used here); `fuel` is instantiated with the list length. -/
def subFuel (m : List Char → Option Nat) : Nat → List Char → List Char
  | _, [] => []
  | 0, l => l
  | fuel + 1, c :: rest =>
    match m (c :: rest) with
    | some k => subFuel m fuel (List.drop (max k 1 - 1) rest)
    | none => c :: subFuel m fuel rest

def subAll (m : List Char → Option Nat) (l : List Char) : List Char :=
  subFuel m l.length l

/-- `(?is)<!doctype[^>]*>` -/
def matchDoctype (l : List Char) : Option Nat := tagMatch "<!doctype".data l

/-- `(?is)</?html[^>]*>` -/
def matchHtmlTag (l : List Char) : Option Nat :=
  match tagMatch "<html".data l with
  | some k => some k
  | none => tagMatch "</html".data l

/-- `(?is)</?head[^>]*>` -/
def matchHeadTag (l : List Char) : Option Nat :=
  match tagMatch "<head".data l with
  | some k => some k
  | none => tagMatch "</head".data l

/-- `(?is)<meta[^>]*>` -/
def matchMeta (l : List Char) : Option Nat := tagMatch "<meta".data l

/-- `(?is)<title[^>]*>.*?</title\s*>` -/
def matchTitle (l : List Char) : Option Nat :=
  match tagMatch "<title".data l with
  | none => none
  | some k => (lazyLen (closeTag "title".data) (l.drop k)).map fun t => k + t

/-- The five `re.sub` passes of the no-body branch, in source order:
doctype, html, head, meta, title. -/
def stripWrappers (l : List Char) : List Char :=
  subAll matchTitle (subAll matchMeta (subAll matchHeadTag
    (subAll matchHtmlTag (subAll matchDoctype l))))

/-- `_extract_body_fragment` (source lines 775-797): return the first
body element's contents (stripped) when the body pattern matches;
otherwise delete doctype / html / head / meta / title tags and strip. -/
def extract_body_fragment (html : String) : String :=
  if html = "" then ""
  else
    match bodySearch (stripL html.data) with
    | some content => ⟨stripL content⟩
    | none => ⟨stripL (stripWrappers (stripL html.data))⟩

/-! ### `_inject_placeholders` and `_ensure_review_fallback` -/

/-- `_inject_placeholders` (source lines 734-752), with the UI variables
`self.sender_var` / `self.review_var` passed as arguments. -/
def inject_placeholders (sender_var review_var : String)
    (html_fragment : String) : String :=
  let sender := pyStripS sender_var
  let review := pyStripS review_var
  let res := html_fragment
  let res := if sender ≠ "" then pyRep res "%SENDER%" sender else res
  if review ≠ "" then
    let res := pyRep res "REVIEW_DOCUMENT_URL" review
    let res := pyRep res "REPLACE_WITH_AUDIO_URL" review
    pyRep res "%REVIEW_DOCUMENT_URL%" review
  else res

/-- The pieces of the f-string built by `_ensure_review_fallback`,
interleaved with the two occurrences of the review URL. -/
def FB1 : String :=
  "<p style=\"margin-top:12px;font-size:14px;color:#222;\">" ++
  "If the button above does not work, open this link to review the document: " ++
  "<a href=\""

def FB2 : String :=
  "\" target=\"_blank\" rel=\"noopener\" style=\"color:#1f61c3;word-break:break-all;\">"

def FB3 : String := "</a></p>"

def fallbackBlock (review : String) : String :=
  FB1 ++ review ++ FB2 ++ review ++ FB3

/-- `_ensure_review_fallback` (source lines 754-773). -/
def ensure_review_fallback (review_var : String) (fragment : String) : String :=
  let review := pyStripS review_var
  if review = "" then fragment
  else if review.data <:+: fragment.data then fragment
  else fragment ++ fallbackBlock review

/-! ### The tracking pixel: base64 and the GIF payload -/

/-- Value of a character in the standard base64 alphabet
(padding / invalid characters map to 64, never reached on valid input). -/
def b64Val (c : Char) : Nat :=
  if 'A' ≤ c ∧ c ≤ 'Z' then c.toNat - 65
  else if 'a' ≤ c ∧ c ≤ 'z' then c.toNat - 97 + 26
  else if '0' ≤ c ∧ c ≤ '9' then c.toNat - 48 + 52
  else if c = '+' then 62
  else if c = '/' then 63
  else 64

/-- Standard base64 decoding (`base64.b64decode`), producing byte values. -/
def b64DecodeL : List Char → List Nat
  | a :: b :: c :: d :: rest =>
    let b1 := b64Val a * 4 + b64Val b / 16
    let b2 := b64Val b % 16 * 16 + b64Val c / 4
    let b3 := b64Val c % 4 * 64 + b64Val d
    if c = '=' then [b1]
    else if d = '=' then [b1, b2]
    else b1 :: b2 :: b3 :: b64DecodeL rest
  | _ => []

def b64decode (s : String) : List Nat := b64DecodeL s.data

/-- The base64 literal hard-coded in `_one_by_one_gif_response`. -/
def GIF_B64 : String := "R0lGODlhAQABAIABAP///wAAACwAAAAAAQABAAACAkQBADs="

/-- The bytes served by the pixel endpoint. -/
def gifBytes : List Nat := b64decode GIF_B64

/-- A structurally valid 1x1 GIF: `GIF89a` signature, logical screen
1x1 (little-endian 16-bit dimensions), and the `0x3B` trailer. -/
def isValid1x1Gif (b : List Nat) : Prop :=
  b.take 6 = [71, 73, 70, 56, 57, 97] ∧
  (b.drop 6).take 4 = [1, 0, 1, 0] ∧
  b.getLast? = some 59

instance (b : List Nat) : Decidable (isValid1x1Gif b) := by
  unfold isValid1x1Gif; infer_instance

/-- A GIF89a stream can mark a colour transparent only inside a Graphic
Control Extension block, whose two-byte introducer is `0x21 0xF9`; this is
the necessary condition for transparency. -/
def gifHasGce (b : List Nat) : Prop := [33, 249] <:+: b

instance (b : List Nat) : Decidable (gifHasGce b) :=
  List.decidableInfix _ _

/-! ### The tracking correlation store and the `/track` handler -/

/-- A `RecipientRecord`, as created by `start_sending` (source line 611):
`{"email": ..., "status": ..., "sent_time": ..., "opened_time": ...,
"replied": ...}`. -/
structure Entry where
  email : String
  status : String
  sent_time : String
  opened_time : String
  replied : Bool
deriving DecidableEq

/-- The shared mutable state touched by the handler and the workers:
`tracking_map`, `action_queue` (auto-reply actions as
`(email, track_id)` pairs), `recent_replies`, the log, and the counters.
GUI-queue traffic is display-only and not modelled. -/
structure AppState where
  tracking_map : List (String × Entry)
  action_queue : List (String × String)
  recent_replies : List (String × Int)
  log : List String
  sent_count : Nat
  failed_count : Nat
deriving DecidableEq

/-- The HTTP response produced by `_one_by_one_gif_response`
(source lines 2057-2062): Flask's `make_response(bytes)` has status 200,
and the handler then sets the content type and cache headers. -/
structure TrackResponse where
  status : Nat
  contentType : String
  cacheControl : String
  body : List Nat
deriving DecidableEq

def one_by_one_gif_response : TrackResponse :=
  { status := 200
    contentType := "image/gif"
    cacheControl := "no-cache, no-store, must-revalidate"
    body := gifBytes }

/-- The `/track` route handler (source lines 2012-2032).  `track_id` is
`request.args.get("id", "")` (so an absent parameter arrives as `""`),
`ts` is the formatted current time. -/
def track (st : AppState) (track_id : String) (ts : String) :
    AppState × TrackResponse :=
  if track_id = "" then (st, one_by_one_gif_response)
  else
    match alookup st.tracking_map track_id with
    | some entry =>
      let entry1 : Entry := { entry with opened_time := ts, status := "Opened" }
      let st1 : AppState :=
        { st with
          tracking_map := aset st.tracking_map track_id entry1
          log := st.log ++ ["Tracking pixel hit for " ++ entry.email] }
      let st2 : AppState :=
        if entry1.replied then st1
        else
          { st1 with
            action_queue := st1.action_queue ++ [(entry.email, track_id)]
            tracking_map :=
              aset st1.tracking_map track_id { entry1 with replied := true } }
      (st2, one_by_one_gif_response)
    | none =>
      ({ st with log := st.log ++ ["Unknown tracking id hit: " ++ track_id] },
       one_by_one_gif_response)

/-- A sequence of pixel hits on the same tracking id, one state update
per hit (the response is always the same GIF and is dropped here). -/
def trackN (st : AppState) (id : String) : List String → AppState
  | [] => st
  | ts :: rest => trackN (track st id ts).1 id rest

/-- How many auto-reply actions sit in the queue for a given tracking id. -/
def countAuto (q : List (String × String)) (id : String) : Nat :=
  (q.filter fun p => p.2 == id).length

/-! ### The auto-reply worker (`action_worker`, source lines 1969-2001)

One dequeued `("auto_reply", email, track_id)` action is processed at
wall-clock time `now`; `driver_ok` is whether `self.driver` is set, and
`send_ok` is whether `self.send_email` returns rather than raises. -/

/-- Processing of one auto-reply action.  Returns the new state and
whether an auto-reply was actually sent. -/
def action_worker_step (st : AppState) (email track_id : String) (now : Int)
    (driver_ok send_ok : Bool) : AppState × Bool :=
  let last := (alookup st.recent_replies email).getD 0
  if now - last < 3600 then
    ({ st with log := st.log ++ ["Skipping auto-reply to " ++ email] }, false)
  else if driver_ok then
    if send_ok then
      let st1 : AppState :=
        { st with recent_replies := aset st.recent_replies email now }
      let st2 : AppState :=
        match alookup st1.tracking_map track_id with
        | some e =>
          { st1 with
            tracking_map := aset st1.tracking_map track_id { e with replied := true } }
        | none => st1
      (st2, true)
    else ({ st with log := st.log ++ ["Auto-reply failed"] }, false)
  else
    ({ st with log := st.log ++ ["Cannot send auto-reply: driver not available."] },
     false)

/-- One dequeued action together with its environment: the time at which
the worker processes it and the outcomes of the driver check and of
`send_email`. -/
structure ActionEvent where
  email : String
  track_id : String
  now : Int
  driver_ok : Bool
  send_ok : Bool

/-- Run the worker over a queue of actions, collecting the auto-replies
actually sent as `(email, time)` events. -/
def runActions (st : AppState) : List ActionEvent → AppState × List (String × Int)
  | [] => (st, [])
  | a :: rest =>
    let step := action_worker_step st a.email a.track_id a.now a.driver_ok a.send_ok
    let tail := runActions step.1 rest
    (tail.1, (if step.2 then [(a.email, a.now)] else []) ++ tail.2)

/-! ### The per-recipient send task (`_send_single_email`, lines 665-705) -/

/-- The environment a send task runs against: the provider string and the
outcomes of the fallible collaborators (`send_via_outlook_desktop`,
driver presence, `self.send_email`).  A `false` outcome means the call
raises. -/
structure SendEnv where
  provider : String
  helper_available : Bool
  desktop_ok : Bool
  driver_ok : Bool
  send_ok : Bool

def pyLower (s : String) : String := ⟨s.data.map Char.toLower⟩

/-- The body of `_send_single_email` inside the outer `try`: desktop
attempt (its failure is caught by the inner `try` and falls through),
then the Selenium path, whose failures raise. -/
def send_single_email_body (env : SendEnv) : Except String Bool :=
  let selenium : Except String Bool :=
    if env.driver_ok then
      if env.send_ok then Except.ok true else Except.error "send_email raised"
    else Except.error "Driver not available"
  if "outlook".data <:+: (pyLower env.provider).data then
    if env.helper_available then
      if env.desktop_ok then Except.ok true else selenium
    else selenium
  else selenium

/-- `_send_single_email`: the outer `try/except` catches every exception,
captures a diagnostic screenshot, logs, and returns `False`. -/
def send_single_email (env : SendEnv) : Except String Bool :=
  match send_single_email_body env with
  | Except.ok b => Except.ok b
  | Except.error _ => Except.ok false

/-! ### Result collection (`_concurrent_sender`, lines 633-663) -/

/-- `self.tracking_map[track_id]["status"] = s`: `none` models the
`KeyError` Python raises when the id is absent. -/
def dictSetStatus (m : List (String × Entry)) (id s : String) :
    Option (List (String × Entry)) :=
  match alookup m id with
  | some e => some (aset m id { e with status := s })
  | none => none

/-- Handling of one completed future in the `as_completed` loop: `res` is
the outcome of `future.result()`.  `none` models an uncaught `KeyError`
escaping the loop (never reached for ids minted by `start_sending`). -/
def handle_result (st : AppState) (id email : String) (res : Except String Bool) :
    Option AppState :=
  match res with
  | Except.ok true =>
    (dictSetStatus st.tracking_map id "Sent").map fun m =>
      { st with
        sent_count := st.sent_count + 1
        tracking_map := m
        log := st.log ++ ["Successfully sent to " ++ email] }
  | Except.ok false =>
    (dictSetStatus st.tracking_map id "Failed").map fun m =>
      { st with failed_count := st.failed_count + 1, tracking_map := m }
  | Except.error e =>
    (dictSetStatus st.tracking_map id "Failed").map fun m =>
      { st with
        failed_count := st.failed_count + 1
        tracking_map := m
        log := st.log ++ ["Failed to send to " ++ email ++ ": " ++ e] }

/-- The collection loop over all completed futures, in completion order. -/
def concurrent_collect (st : AppState) :
    List (String × String × Except String Bool) → Option AppState
  | [] => some st
  | (id, email, res) :: rest =>
    match handle_result st id email res with
    | some st1 => concurrent_collect st1 rest
    | none => none

/-! ### Batch creation (`start_sending`, lines 607-628) -/

/-- The fresh record created for each recipient (source line 611). -/
def mkEntry (email ts : String) : Entry :=
  { email := email, status := "Queued", sent_time := ts,
    opened_time := "", replied := false }

/-- The per-recipient loop of `start_sending`: `pairs` is the recipient
list zipped with the tracking ids minted for this batch
(`str(uuid.uuid4())` per recipient, modelled as a given stream of ids).
Returns the updated map and the `email_tasks` list. -/
def enqueue_recipients (ts : String) :
    List (String × String) → List (String × Entry) →
    List (String × Entry) × List (String × String)
  | [], m => (m, [])
  | (id, email) :: rest, m =>
    let tail := enqueue_recipients ts rest (aset m id (mkEntry email ts))
    (tail.1, (id, email) :: tail.2)

/-! ### Observation points for the status invariant -/

/-- A status value of the defined enum. -/
def validStatus (s : String) : Prop :=
  s = "Queued" ∨ s = "Sent" ∨ s = "Opened" ∨ s = "Failed"

def allValid (m : List (String × Entry)) : Prop :=
  ∀ p ∈ m, validStatus p.2.status

instance (s : String) : Decidable (validStatus s) := by
  unfold validStatus
  infer_instance

instance (m : List (String × Entry)) : Decidable (allValid m) := by
  unfold allValid
  infer_instance

/-- The operations that mutate the tracking store after a batch starts. -/
inductive Op where
  | pixel (id ts : String)
  | completion (id email : String) (res : Except String Bool)
  | action (a : ActionEvent)

/-- One observation step.  A `completion` on an absent id raises in
Python and kills the collection loop; no further observation happens, so
it is modelled as leaving the state unchanged. -/
def applyOp (st : AppState) : Op → AppState
  | Op.pixel id ts => (track st id ts).1
  | Op.completion id email res => (handle_result st id email res).getD st
  | Op.action a => (action_worker_step st a.email a.track_id a.now a.driver_ok a.send_ok).1

def applyOps (st : AppState) : List Op → AppState
  | [] => st
  | op :: rest => applyOps (applyOp st op) rest

/-! ### Lemmas about the dict embedding -/

theorem alookup_aset_self {β : Type} (m : List (String × β)) (k : String) (v : β) :
    alookup (aset m k v) k = some v := by
  induction m with
  | nil => simp [aset, alookup]
  | cons p rest ih =>
    obtain ⟨k', v'⟩ := p
    by_cases h : k' = k <;> simp [aset, alookup, h, ih]

theorem alookup_aset_ne {β : Type} (m : List (String × β)) (k k₂ : String) (v : β)
    (h : k ≠ k₂) : alookup (aset m k v) k₂ = alookup m k₂ := by
  induction m with
  | nil => simp [aset, alookup, h]
  | cons p rest ih =>
    obtain ⟨k', v'⟩ := p
    by_cases h' : k' = k
    · subst h'
      simp [aset, alookup, h]
    · simp [aset, alookup, h', ih]

theorem aset_fresh_append {β : Type} (m : List (String × β)) (k : String) (v : β)
    (h : alookup m k = none) : aset m k v = m ++ [(k, v)] := by
  induction m with
  | nil => simp [aset]
  | cons p rest ih =>
    obtain ⟨k', v'⟩ := p
    by_cases h' : k' = k
    · simp [alookup, h'] at h
    · simp [alookup, h'] at h
      simp [aset, h', ih h]

/-! ### General lemmas about `str.replace`

The claims about `_inject_placeholders` need four facts about one
replacement pass: the pattern does not survive its own replacement; an
absent token stays absent; the replacement value appears whenever the
pattern occurred; and a token that cannot overlap the pattern survives
the replacement.  All are proved by induction on the fuel. -/

/-- The character at an offset strictly inside `v` in `s ++ (c :: w) =
v ++ y` with the offset `s.length`: that character `c` is an element of
`v`. -/
theorem mem_of_append_cons_eq {s w v y : List Char} {c : Char}
    (h : s ++ (c :: w) = v ++ y) (hv : s.length < v.length) : c ∈ v := by
  have h1 : List.take (s.length + 1) (s ++ (c :: w)) = s ++ [c] := by
    rw [List.take_append_eq_append_take]
    rw [List.take_of_length_le (by omega)]
    congr 1
    rw [Nat.add_sub_cancel_left]
    rfl
  have h2 : List.take (s.length + 1) (v ++ y) = List.take (s.length + 1) v :=
    List.take_append_of_le_length (by omega)
  have h3 : s ++ [c] = List.take (s.length + 1) v := by rw [← h1, h, h2]
  have h4 : s ++ [c] <+: v := by
    rw [h3]; exact List.take_prefix _ v
  exact h4.subset (by simp)

/-- An occurrence of `u` inside `v ++ y` whose characters are disjoint
from `v` lies entirely inside `y`. -/
theorem infix_append_elim {u v y : List Char} (hu : u ≠ [])
    (hdisj : ∀ c ∈ u, c ∉ v) (h : u <:+: v ++ y) : u <:+: y := by
  obtain ⟨s, t, hst⟩ := h
  by_cases hle : v.length ≤ s.length
  · have hy : u ++ t = List.drop (s.length - v.length) y := by
      have h1 : List.drop s.length (s ++ (u ++ t)) = u ++ t := List.drop_left s _
      have h2 : s.length = v.length + (s.length - v.length) :=
        (Nat.add_sub_cancel' hle).symm
      have h3 : List.drop s.length (v ++ y) = List.drop (s.length - v.length) y := by
        conv_lhs => rw [h2]
        rw [List.drop_append]
      rw [← h1, ← h3]
      rw [← List.append_assoc, hst]
    have hpre : u <+: List.drop (s.length - v.length) y := ⟨t, hy⟩
    exact hpre.isInfix.trans (List.drop_suffix _ y).isInfix
  · exfalso
    obtain ⟨c, u', rfl⟩ : ∃ c u', u = c :: u' := by
      cases u with
      | nil => exact absurd rfl hu
      | cons c u' => exact ⟨c, u', rfl⟩
    have hv : s.length < v.length := Nat.lt_of_not_le hle
    have hst' : s ++ (c :: (u' ++ t)) = v ++ y := by
      simpa using hst
    exact hdisj c (List.mem_cons_self c u') (mem_of_append_cons_eq hst' hv)

theorem length_drop_le_fuel {rest : List Char} {n k : Nat}
    (hlen : rest.length + 1 ≤ n + 1) : (List.drop k rest).length ≤ n := by
  rw [List.length_drop]; omega

/-- A nonempty prefix of the output of one replacement pass whose
characters avoid the replacement value is a prefix of the input. -/
theorem prefix_of_prefix_replaceFuel (old new : List Char) (hnew : new ≠ []) :
    ∀ (fuel : Nat) (l u : List Char), l.length ≤ fuel → u ≠ [] →
      (∀ a ∈ u, a ∉ new) → u <+: replaceFuel old new fuel l → u <+: l := by
  intro fuel
  induction fuel with
  | zero =>
    intro l u hlen hu hd hp
    obtain rfl : l = [] := List.eq_nil_of_length_eq_zero (Nat.le_zero.mp hlen)
    exact absurd (List.prefix_nil.mp hp) hu
  | succ n ih =>
    intro l u hlen hu hd hp
    cases l with
    | nil => exact absurd (List.prefix_nil.mp hp) hu
    | cons c rest =>
      obtain ⟨u₀, u', rfl⟩ : ∃ u₀ u', u = u₀ :: u' := by
        cases u with
        | nil => exact absurd rfl hu
        | cons u₀ u' => exact ⟨u₀, u', rfl⟩
      by_cases hm : old.isPrefixOf (c :: rest)
      · rw [replaceFuel, if_pos hm] at hp
        obtain ⟨n₀, new', rfl⟩ : ∃ n₀ new', new = n₀ :: new' := by
          cases new with
          | nil => exact absurd rfl hnew
          | cons n₀ new' => exact ⟨n₀, new', rfl⟩
        rw [List.cons_append] at hp
        obtain ⟨h₀, -⟩ := List.cons_prefix_cons.mp hp
        exact absurd (h₀ ▸ List.mem_cons_self n₀ new')
          (hd u₀ (List.mem_cons_self u₀ u'))
      · rw [replaceFuel, if_neg hm] at hp
        obtain ⟨h₀, hp'⟩ := List.cons_prefix_cons.mp hp
        subst h₀
        cases u' with
        | nil => exact List.cons_prefix_cons.mpr ⟨rfl, List.nil_prefix⟩
        | cons b u'' =>
          have hrec : b :: u'' <+: rest :=
            ih rest (b :: u'') (Nat.le_of_succ_le_succ hlen) (by simp)
              (fun a ha => hd a (List.mem_cons_of_mem _ ha)) hp'
          exact List.cons_prefix_cons.mpr ⟨rfl, hrec⟩

/-- The pattern of a replacement never occurs in the output when its
characters are disjoint from the replacement value. -/
theorem not_infix_replaceFuel (old new : List Char) (hold : old ≠ [])
    (hnew : new ≠ []) (hdisj : ∀ a ∈ old, a ∉ new) :
    ∀ (fuel : Nat) (l : List Char), l.length ≤ fuel →
      ¬ old <:+: replaceFuel old new fuel l := by
  intro fuel
  induction fuel with
  | zero =>
    intro l hlen h
    obtain rfl : l = [] := List.eq_nil_of_length_eq_zero (Nat.le_zero.mp hlen)
    exact hold (List.infix_nil.mp h)
  | succ n ih =>
    intro l hlen h
    cases l with
    | nil => exact hold (List.infix_nil.mp h)
    | cons c rest =>
      by_cases hm : old.isPrefixOf (c :: rest)
      · rw [replaceFuel, if_pos hm] at h
        exact ih _ (length_drop_le_fuel hlen) (infix_append_elim hold hdisj h)
      · rw [replaceFuel, if_neg hm] at h
        rcases List.infix_cons_iff.mp h with hpre | hinf
        · obtain ⟨o, old', rfl⟩ : ∃ o old', old = o :: old' := by
            cases old with
            | nil => exact absurd rfl hold
            | cons o old' => exact ⟨o, old', rfl⟩
          obtain ⟨h₀, hp'⟩ := List.cons_prefix_cons.mp hpre
          subst h₀
          cases old' with
          | nil =>
            exact hm (List.isPrefixOf_iff_prefix.mpr
              (List.cons_prefix_cons.mpr ⟨rfl, List.nil_prefix⟩))
          | cons b old'' =>
            have hrec : b :: old'' <+: rest :=
              prefix_of_prefix_replaceFuel _ _ hnew n rest (b :: old'')
                (Nat.le_of_succ_le_succ hlen) (by simp)
                (fun a ha => hdisj a (List.mem_cons_of_mem _ ha)) hp'
            exact hm (List.isPrefixOf_iff_prefix.mpr
              (List.cons_prefix_cons.mpr ⟨rfl, hrec⟩))
        · exact ih rest (Nat.le_of_succ_le_succ hlen) hinf

/-- A token absent from the input stays absent through a replacement pass
whose value is character-disjoint from the token. -/
theorem not_infix_replaceFuel_preserved (old new tok : List Char)
    (htok : tok ≠ []) (hnew : new ≠ []) (hdisj : ∀ a ∈ tok, a ∉ new) :
    ∀ (fuel : Nat) (l : List Char), l.length ≤ fuel → ¬ tok <:+: l →
      ¬ tok <:+: replaceFuel old new fuel l := by
  intro fuel
  induction fuel with
  | zero =>
    intro l hlen habs h
    obtain rfl : l = [] := List.eq_nil_of_length_eq_zero (Nat.le_zero.mp hlen)
    exact habs h
  | succ n ih =>
    intro l hlen habs h
    cases l with
    | nil => exact habs h
    | cons c rest =>
      by_cases hm : old.isPrefixOf (c :: rest)
      · rw [replaceFuel, if_pos hm] at h
        have h2 := infix_append_elim htok hdisj h
        have habs2 : ¬ tok <:+: List.drop (old.length - 1) rest := fun hx =>
          habs (hx.trans ((List.drop_suffix _ rest).isInfix.trans
            (List.suffix_cons c rest).isInfix))
        exact ih _ (length_drop_le_fuel hlen) habs2 h2
      · rw [replaceFuel, if_neg hm] at h
        rcases List.infix_cons_iff.mp h with hpre | hinf
        · obtain ⟨t₀, t', rfl⟩ : ∃ t₀ t', tok = t₀ :: t' := by
            cases tok with
            | nil => exact absurd rfl htok
            | cons t₀ t' => exact ⟨t₀, t', rfl⟩
          obtain ⟨h₀, hp'⟩ := List.cons_prefix_cons.mp hpre
          subst h₀
          cases t' with
          | nil =>
            exact habs (List.cons_prefix_cons.mpr
              ⟨rfl, List.nil_prefix⟩ : _ <+: t₀ :: rest).isInfix
          | cons b t'' =>
            have hrec : b :: t'' <+: rest :=
              prefix_of_prefix_replaceFuel _ _ hnew n rest (b :: t'')
                (Nat.le_of_succ_le_succ hlen) (by simp)
                (fun a ha => hdisj a (List.mem_cons_of_mem _ ha)) hp'
            exact habs (List.cons_prefix_cons.mpr ⟨rfl, hrec⟩ :
              _ <+: t₀ :: rest).isInfix
        · have habs2 : ¬ tok <:+: rest := fun hx =>
            habs (hx.trans (List.suffix_cons c rest).isInfix)
          exact ih rest (Nat.le_of_succ_le_succ hlen) habs2 hinf

/-- When the pattern occurs, the replacement value occurs in the output. -/
theorem new_infix_replaceFuel (old new : List Char) (hold : old ≠ []) :
    ∀ (fuel : Nat) (l : List Char), l.length ≤ fuel → old <:+: l →
      new <:+: replaceFuel old new fuel l := by
  intro fuel
  induction fuel with
  | zero =>
    intro l hlen h
    obtain rfl : l = [] := List.eq_nil_of_length_eq_zero (Nat.le_zero.mp hlen)
    exact absurd (List.infix_nil.mp h) hold
  | succ n ih =>
    intro l hlen h
    cases l with
    | nil => exact absurd (List.infix_nil.mp h) hold
    | cons c rest =>
      by_cases hm : old.isPrefixOf (c :: rest)
      · rw [replaceFuel, if_pos hm]
        exact (List.prefix_append new _).isInfix
      · rw [replaceFuel, if_neg hm]
        rcases List.infix_cons_iff.mp h with hpre | hinf
        · exact absurd (List.isPrefixOf_iff_prefix.mpr hpre) hm
        · exact List.infix_cons (ih rest (Nat.le_of_succ_le_succ hlen) hinf)

/-- A replacement pass on an input without the pattern is the identity. -/
theorem replaceFuel_id_of_absent (old new : List Char) :
    ∀ (fuel : Nat) (l : List Char), l.length ≤ fuel → ¬ old <:+: l →
      replaceFuel old new fuel l = l := by
  intro fuel
  induction fuel with
  | zero =>
    intro l hlen habs
    obtain rfl : l = [] := List.eq_nil_of_length_eq_zero (Nat.le_zero.mp hlen)
    rfl
  | succ n ih =>
    intro l hlen habs
    cases l with
    | nil => rfl
    | cons c rest =>
      by_cases hm : old.isPrefixOf (c :: rest)
      · exact absurd (List.isPrefixOf_iff_prefix.mp hm).isInfix habs
      · rw [replaceFuel, if_neg hm]
        have habs2 : ¬ old <:+: rest := fun hx =>
          habs (hx.trans (List.suffix_cons c rest).isInfix)
        rw [ih rest (Nat.le_of_succ_le_succ hlen) habs2]

/-- An occurrence of `u` inside `v ++ w` lies in `v`, lies in `w`, or
spans the boundary: `u` splits into a nonempty suffix of `v` followed by
a nonempty prefix of `w`. -/
theorem infix_append_trichotomy {u v w : List Char} (h : u <:+: v ++ w) :
    u <:+: v ∨ u <:+: w ∨
      ∃ u1 u2, u = u1 ++ u2 ∧ u1 ≠ [] ∧ u2 ≠ [] ∧ u1 <:+ v ∧ u2 <+: w := by
  obtain ⟨s, t, hst⟩ := h
  have hkey : u ++ t = List.drop s.length (v ++ w) := by
    have h1 : List.drop s.length (s ++ (u ++ t)) = u ++ t := List.drop_left s _
    rw [← h1]
    rw [← List.append_assoc, hst]
  by_cases hle : v.length ≤ s.length
  · refine Or.inr (Or.inl ?_)
    have h2 : s.length = v.length + (s.length - v.length) :=
      (Nat.add_sub_cancel' hle).symm
    rw [h2, List.drop_append] at hkey
    have hpre : u <+: List.drop (s.length - v.length) w := ⟨t, hkey⟩
    exact hpre.isInfix.trans (List.drop_suffix _ w).isInfix
  · have hv : s.length < v.length := Nat.lt_of_not_le hle
    rw [List.drop_append_of_le_length (Nat.le_of_lt hv)] at hkey
    by_cases hu : s.length + u.length ≤ v.length
    · refine Or.inl ?_
      have hlen : u.length ≤ (List.drop s.length v).length := by
        rw [List.length_drop]; omega
      have hup : u = List.take u.length (List.drop s.length v) := by
        have := congrArg (List.take u.length) hkey
        rwa [List.take_left, List.take_append_of_le_length hlen] at this
      have hpre : u <+: List.drop s.length v := by
        rw [hup]; exact List.take_prefix _ _
      exact hpre.isInfix.trans (List.drop_suffix _ v).isInfix
    · refine Or.inr (Or.inr ?_)
      have hsplit : v.length - s.length ≤ u.length := by omega
      refine ⟨List.take (v.length - s.length) u, List.drop (v.length - s.length) u,
        (List.take_append_drop _ u).symm, ?_, ?_, ?_, ?_⟩
      · have : (List.take (v.length - s.length) u).length = v.length - s.length := by
          rw [List.length_take]; omega
        intro hnil
        rw [hnil] at this
        simp at this
        omega
      · have : (List.drop (v.length - s.length) u).length = u.length - (v.length - s.length) := by
          rw [List.length_drop]
        intro hnil
        rw [hnil] at this
        simp at this
        omega
      · have h1 := congrArg (List.take (v.length - s.length)) hkey
        rw [List.take_append_of_le_length hsplit] at h1
        have h2 : List.take (v.length - s.length) (List.drop s.length v ++ w) =
            List.drop s.length v := by
          apply List.take_left'
          rw [List.length_drop]
        rw [h2] at h1
        exact h1 ▸ List.drop_suffix s.length v
      · have h1 := congrArg (List.drop (v.length - s.length)) hkey
        rw [List.drop_append_of_le_length hsplit] at h1
        have h2 : List.drop (v.length - s.length) (List.drop s.length v ++ w) = w := by
          apply List.drop_left'
          rw [List.length_drop]
        rw [h2] at h1
        exact ⟨t, h1⟩

/-- A nonempty suffix `u` of a token that cannot overlap the pattern
(`h1`, `h4`) survives a replacement pass as a prefix. -/
theorem prefix_replaceFuel_of_prefix (old new sub : List Char)
    (h1 : ¬ old <:+: sub)
    (h4 : ∀ i, i < sub.length → ¬ (sub.drop i) <+: old) :
    ∀ (fuel : Nat) (l u : List Char), l.length ≤ fuel → u ≠ [] → u <:+ sub →
      u <+: l → u <+: replaceFuel old new fuel l := by
  intro fuel
  induction fuel with
  | zero =>
    intro l u hlen hu hsuf hp
    obtain rfl : l = [] := List.eq_nil_of_length_eq_zero (Nat.le_zero.mp hlen)
    exact absurd (List.prefix_nil.mp hp) hu
  | succ n ih =>
    intro l u hlen hu hsuf hp
    cases l with
    | nil => exact absurd (List.prefix_nil.mp hp) hu
    | cons c rest =>
      by_cases hm : old.isPrefixOf (c :: rest)
      · exfalso
        have hop : old <+: c :: rest := List.isPrefixOf_iff_prefix.mp hm
        rcases List.prefix_or_prefix_of_prefix hp hop with huo | hou
        · obtain ⟨p, hpu⟩ := hsuf
          have hidx : p.length < sub.length := by
            have := congrArg List.length hpu
            rw [List.length_append] at this
            have hupos : 0 < u.length := List.length_pos.mpr hu
            omega
          have hdrop : sub.drop p.length = u := by
            rw [← hpu]; exact List.drop_left p u
          exact h4 p.length hidx (hdrop ▸ huo)
        · exact h1 (hou.isInfix.trans hsuf.isInfix)
      · rw [replaceFuel, if_neg hm]
        obtain ⟨u₀, u', rfl⟩ : ∃ u₀ u', u = u₀ :: u' := by
          cases u with
          | nil => exact absurd rfl hu
          | cons u₀ u' => exact ⟨u₀, u', rfl⟩
        obtain ⟨h₀, hp'⟩ := List.cons_prefix_cons.mp hp
        subst h₀
        cases u' with
        | nil => exact List.cons_prefix_cons.mpr ⟨rfl, List.nil_prefix⟩
        | cons b u'' =>
          have hsuf' : b :: u'' <:+ sub :=
            (List.suffix_cons u₀ (b :: u'')).trans hsuf
          have hrec : b :: u'' <+: replaceFuel old new n rest :=
            ih rest (b :: u'') (Nat.le_of_succ_le_succ hlen) (by simp) hsuf' hp'
          exact List.cons_prefix_cons.mpr ⟨rfl, hrec⟩

/-- A token that cannot overlap the pattern (in either direction, and is
not contained in it) survives a replacement pass. -/
theorem replaceFuel_preserves_occurrence (old new sub : List Char) (hsub : sub ≠ [])
    (h1 : ¬ old <:+: sub) (h2 : ¬ sub <:+: old)
    (h3 : ∀ i, i < old.length → ¬ (old.drop i) <+: sub)
    (h4 : ∀ i, i < sub.length → ¬ (sub.drop i) <+: old) :
    ∀ (fuel : Nat) (l : List Char), l.length ≤ fuel → sub <:+: l →
      sub <:+: replaceFuel old new fuel l := by
  have hold : old ≠ [] := by
    intro h
    exact h1 (h ▸ List.nil_infix)
  intro fuel
  induction fuel with
  | zero =>
    intro l hlen h
    obtain rfl : l = [] := List.eq_nil_of_length_eq_zero (Nat.le_zero.mp hlen)
    exact absurd (List.infix_nil.mp h) hsub
  | succ n ih =>
    intro l hlen h
    cases l with
    | nil => exact absurd (List.infix_nil.mp h) hsub
    | cons c rest =>
      by_cases hm : old.isPrefixOf (c :: rest)
      · rw [replaceFuel, if_pos hm]
        have hop : old <+: c :: rest := List.isPrefixOf_iff_prefix.mp hm
        obtain ⟨l₂, hl₂⟩ := hop
        have hdrop : List.drop (old.length - 1) rest = l₂ := by
          have h5 : List.drop old.length (old ++ l₂) = l₂ := List.drop_left old l₂
          have h6 : old.length = (old.length - 1) + 1 := by
            have : 0 < old.length := List.length_pos.mpr hold
            omega
          rw [hl₂, h6, List.drop_succ_cons] at h5
          exact h5
        rcases infix_append_trichotomy (hl₂ ▸ h) with hv | hw | hspan
        · exact absurd hv h2
        · have hlen2 : l₂.length ≤ n := by
            have hl := congrArg List.length hl₂
            rw [List.length_append, List.length_cons] at hl
            have hpos : 0 < old.length := List.length_pos.mpr hold
            have hr : rest.length + 1 ≤ n + 1 := by simpa using hlen
            omega
          rw [hdrop]
          exact (ih l₂ hlen2 hw).trans (List.suffix_append new _).isInfix
        · obtain ⟨u1, u2, hu, h1ne, h2ne, hu1v, hu2w⟩ := hspan
          exfalso
          obtain ⟨p, hpu⟩ := hu1v
          have hidx : p.length < old.length := by
            have := congrArg List.length hpu
            rw [List.length_append] at this
            have : 0 < u1.length := List.length_pos.mpr h1ne
            omega
          have hdrop2 : old.drop p.length = u1 := by
            rw [← hpu]; exact List.drop_left p u1
          exact h3 p.length hidx (hdrop2 ▸ ⟨u2, hu.symm⟩)
      · rw [replaceFuel, if_neg hm]
        rcases List.infix_cons_iff.mp h with hpre | hinf
        · have : sub <+: replaceFuel old new (n + 1) (c :: rest) :=
            prefix_replaceFuel_of_prefix old new sub h1 h4 (n + 1) (c :: rest)
              sub hlen hsub List.suffix_rfl hpre
          rw [replaceFuel, if_neg hm] at this
          exact this.isInfix
        · exact List.infix_cons (ih rest (Nat.le_of_succ_le_succ hlen) hinf)

/-! ### The same facts at the `pyRep` level -/

theorem pyRep_removes_pattern (s old new : String) (hold : old.data ≠ [])
    (hnew : new.data ≠ []) (hdisj : ∀ a ∈ old.data, a ∉ new.data) :
    ¬ old.data <:+: (pyRep s old new).data := by
  show ¬ old.data <:+: pyReplaceL old.data new.data s.data
  rw [pyReplaceL, if_neg hold]
  exact not_infix_replaceFuel _ _ hold hnew hdisj _ _ (Nat.le_refl _)

theorem pyRep_preserves_absence (s old new tok : String) (htok : tok.data ≠ [])
    (hnew : new.data ≠ []) (hdisj : ∀ a ∈ tok.data, a ∉ new.data)
    (habs : ¬ tok.data <:+: s.data) : ¬ tok.data <:+: (pyRep s old new).data := by
  show ¬ tok.data <:+: pyReplaceL old.data new.data s.data
  rw [pyReplaceL]
  by_cases h0 : old.data = []
  · rw [if_pos h0]; exact habs
  · rw [if_neg h0]
    exact not_infix_replaceFuel_preserved _ _ _ htok hnew hdisj _ _ (Nat.le_refl _) habs

theorem pyRep_inserts (s old new : String) (hold : old.data ≠ [])
    (hocc : old.data <:+: s.data) : new.data <:+: (pyRep s old new).data := by
  show new.data <:+: pyReplaceL old.data new.data s.data
  rw [pyReplaceL, if_neg hold]
  exact new_infix_replaceFuel _ _ hold _ _ (Nat.le_refl _) hocc

theorem pyRep_preserves_occurrence (s old new sub : String) (hsub : sub.data ≠ [])
    (h1 : ¬ old.data <:+: sub.data) (h2 : ¬ sub.data <:+: old.data)
    (h3 : ∀ i, i < old.data.length → ¬ (old.data.drop i) <+: sub.data)
    (h4 : ∀ i, i < sub.data.length → ¬ (sub.data.drop i) <+: old.data)
    (hocc : sub.data <:+: s.data) : sub.data <:+: (pyRep s old new).data := by
  show sub.data <:+: pyReplaceL old.data new.data s.data
  rw [pyReplaceL]
  by_cases h0 : old.data = []
  · exact absurd (h0 ▸ List.nil_infix) h1
  · rw [if_neg h0]
    exact replaceFuel_preserves_occurrence _ _ _ hsub h1 h2 h3 h4 _ _ (Nat.le_refl _) hocc

theorem pyRep_id_of_absent (s old new : String)
    (habs : ¬ old.data <:+: s.data) : pyRep s old new = s := by
  show (⟨pyReplaceL old.data new.data s.data⟩ : String) = s
  rw [pyReplaceL]
  by_cases h0 : old.data = []
  · rw [if_pos h0]
  · rw [if_neg h0]
    rw [replaceFuel_id_of_absent _ _ _ _ (Nat.le_refl _) habs]

/-! ### Claim C7 -/

/-- C7: `_ensure_review_fallback` returns its input unchanged exactly when
the (stripped) configured review URL already occurs as a substring of the
fragment — in particular always when the URL is empty, since the empty
string is a substring of everything; otherwise it returns the fragment
with exactly one fallback block appended at the end, and that block
carries the literal review URL both as the hyperlink target
(after `<a href="`, the tail of `FB1`) and as the visible link text. -/
theorem claim_C7 (review_var fragment : String) :
    ((pyStripS review_var).data <:+: fragment.data →
      ensure_review_fallback review_var fragment = fragment) ∧
    (¬ (pyStripS review_var).data <:+: fragment.data →
      ensure_review_fallback review_var fragment =
        fragment ++ (FB1 ++ pyStripS review_var ++ FB2 ++ pyStripS review_var ++ FB3) ∧
      (pyStripS review_var).data <:+: (fallbackBlock (pyStripS review_var)).data) := by
  constructor
  · intro h
    by_cases h0 : pyStripS review_var = ""
    · simp only [ensure_review_fallback, if_pos h0]
    · simp only [ensure_review_fallback, if_neg h0, if_pos h]
  · intro h
    have h0 : pyStripS review_var ≠ "" := by
      intro he
      apply h
      rw [he]
      exact List.nil_infix
    refine ⟨?_, ?_⟩
    · simp only [ensure_review_fallback, if_neg h0, if_neg h]
      rfl
    · simp [fallbackBlock]

theorem claim_C7_witness :
    ensure_review_fallback "u" "frag" =
      "frag" ++ (FB1 ++ pyStripS "u" ++ FB2 ++ pyStripS "u" ++ FB3) ∧
    ensure_review_fallback "u" "a u b" = "a u b" :=
  ⟨((claim_C7 "u" "frag").2 (by decide)).1,
   (claim_C7 "u" "a u b").1 (by decide)⟩

/-! ### Claim C10 (corrected) -/

/-- C10 counterexample: with an empty review URL, `_inject_placeholders`
does not leave every review-link token verbatim — a `%SENDER%`
substitution can consume the leading `%` of an adjacent
`%REVIEW_DOCUMENT_URL%` occurrence; and with an empty sender, a review
value ending in `%REVIEW_DOCUMENT_URL` can erase a `%SENDER%` token. -/
theorem claim_C10_counterexample :
    ("%REVIEW_DOCUMENT_URL%".data <:+: "%SENDER%REVIEW_DOCUMENT_URL%".data) ∧
    ¬ ("%REVIEW_DOCUMENT_URL%".data <:+:
        (inject_placeholders "A" "" "%SENDER%REVIEW_DOCUMENT_URL%").data) ∧
    ("%SENDER%".data <:+: "REPLACE_WITH_AUDIO_URL%SENDER%".data) ∧
    ¬ ("%SENDER%".data <:+:
        (inject_placeholders "" "%REVIEW_DOCUMENT_URL"
          "REPLACE_WITH_AUDIO_URL%SENDER%").data) := by
  refine ⟨by decide, by decide, by decide, by decide⟩

/-- C10 (amended): when the caller-supplied review URL is empty,
`_ensure_review_fallback` returns its input unchanged and
`_inject_placeholders` performs no review substitution, so the plain
review tokens `REVIEW_DOCUMENT_URL` and `REPLACE_WITH_AUDIO_URL` are left
in place (the `%`-wrapped variant can lose its leading `%` to an adjacent
sender substitution); when the sender value is empty as well,
`_inject_placeholders` is the identity, leaving the literal `%SENDER%`
token in the message body. -/
theorem claim_C10 (sender_var review_var frag : String)
    (hrev : pyStripS review_var = "") :
    ensure_review_fallback review_var frag = frag ∧
    ("REVIEW_DOCUMENT_URL".data <:+: frag.data →
      "REVIEW_DOCUMENT_URL".data <:+:
        (inject_placeholders sender_var review_var frag).data) ∧
    ("REPLACE_WITH_AUDIO_URL".data <:+: frag.data →
      "REPLACE_WITH_AUDIO_URL".data <:+:
        (inject_placeholders sender_var review_var frag).data) ∧
    (pyStripS sender_var = "" →
      inject_placeholders sender_var review_var frag = frag) := by
  have he : inject_placeholders sender_var review_var frag =
      if pyStripS sender_var ≠ "" then pyRep frag "%SENDER%" (pyStripS sender_var)
      else frag := by
    simp only [inject_placeholders, hrev]
    simp
  refine ⟨?_, ?_, ?_, ?_⟩
  · simp only [ensure_review_fallback, if_pos hrev]
  · intro hocc
    rw [he]
    by_cases hs : pyStripS sender_var = ""
    · simp [hs]
      exact hocc
    · rw [if_pos hs]
      exact pyRep_preserves_occurrence frag _ _ _ (by decide) (by decide) (by decide)
        (by decide) (by decide) hocc
  · intro hocc
    rw [he]
    by_cases hs : pyStripS sender_var = ""
    · simp [hs]
      exact hocc
    · rw [if_pos hs]
      exact pyRep_preserves_occurrence frag _ _ _ (by decide) (by decide) (by decide)
        (by decide) (by decide) hocc
  · intro hs
    rw [he, if_neg (by simp [hs])]

theorem claim_C10_witness :
    ensure_review_fallback "" "frag" = "frag" ∧
    ("REVIEW_DOCUMENT_URL".data <:+:
      (inject_placeholders "A" "" "see REVIEW_DOCUMENT_URL").data) ∧
    inject_placeholders "" "" "x %SENDER% y" = "x %SENDER% y" :=
  ⟨(claim_C10 "A" "" "frag" (by decide)).1,
   (claim_C10 "A" "" "see REVIEW_DOCUMENT_URL" (by decide)).2.1 (by decide),
   (claim_C10 "" "" "x %SENDER% y" (by decide)).2.2.2 (by decide)⟩

/-! ### Claim C8 (corrected) -/

/-- C8 counterexample: the round-trip property fails as universally
stated.  With the non-empty sender value `%SEND`, the substituted
fragment still contains the literal token `%SENDER%`; and on a document
whose body contains no token, the result contains no `Alice` at all. -/
theorem claim_C8_counterexample :
    ("%SENDER%".data <:+:
      (inject_placeholders "%SEND" "https://x/y"
        (extract_body_fragment "<html><body>x%SENDER%ER%y</body></html>")).data) ∧
    ¬ ("Alice".data <:+:
      (inject_placeholders "Alice" "https://x/y"
        (extract_body_fragment "<html><body><p>Hello</p></body></html>")).data) := by
  refine ⟨by decide, by decide⟩

/-- C8 (amended): for every full HTML document, composing
`_extract_body_fragment` with `_inject_placeholders` at the values
`"Alice"` and `"https://x/y"` (which share no character with any
recognized token) yields a fragment with no leftover literal token text —
none of `%SENDER%`, `REVIEW_DOCUMENT_URL`, `REPLACE_WITH_AUDIO_URL`,
`%REVIEW_DOCUMENT_URL%` occurs in the output — and the output contains
`"Alice"` whenever the extracted body contained the sender token, and
`"https://x/y"` whenever it contained the review token. -/
theorem claim_C8 (doc : String) :
    (¬ "%SENDER%".data <:+:
      (inject_placeholders "Alice" "https://x/y" (extract_body_fragment doc)).data) ∧
    (¬ "REVIEW_DOCUMENT_URL".data <:+:
      (inject_placeholders "Alice" "https://x/y" (extract_body_fragment doc)).data) ∧
    (¬ "REPLACE_WITH_AUDIO_URL".data <:+:
      (inject_placeholders "Alice" "https://x/y" (extract_body_fragment doc)).data) ∧
    (¬ "%REVIEW_DOCUMENT_URL%".data <:+:
      (inject_placeholders "Alice" "https://x/y" (extract_body_fragment doc)).data) ∧
    ("%SENDER%".data <:+: (extract_body_fragment doc).data →
      "Alice".data <:+:
        (inject_placeholders "Alice" "https://x/y" (extract_body_fragment doc)).data) ∧
    ("REVIEW_DOCUMENT_URL".data <:+: (extract_body_fragment doc).data →
      "https://x/y".data <:+:
        (inject_placeholders "Alice" "https://x/y" (extract_body_fragment doc)).data) := by
  generalize extract_body_fragment doc = frag
  have he : inject_placeholders "Alice" "https://x/y" frag =
      pyRep (pyRep (pyRep (pyRep frag "%SENDER%" "Alice")
        "REVIEW_DOCUMENT_URL" "https://x/y")
        "REPLACE_WITH_AUDIO_URL" "https://x/y")
        "%REVIEW_DOCUMENT_URL%" "https://x/y" := rfl
  rw [he]
  have hS1 : ¬ "%SENDER%".data <:+: (pyRep frag "%SENDER%" "Alice").data :=
    pyRep_removes_pattern _ _ _ (by decide) (by decide) (by decide)
  have hS2 : ¬ "%SENDER%".data <:+:
      (pyRep (pyRep frag "%SENDER%" "Alice") "REVIEW_DOCUMENT_URL" "https://x/y").data :=
    pyRep_preserves_absence _ _ _ _ (by decide) (by decide) (by decide) hS1
  have hS3 := pyRep_preserves_absence
    (pyRep (pyRep frag "%SENDER%" "Alice") "REVIEW_DOCUMENT_URL" "https://x/y")
    "REPLACE_WITH_AUDIO_URL" "https://x/y" "%SENDER%"
    (by decide) (by decide) (by decide) hS2
  have hS4 := pyRep_preserves_absence _ "%REVIEW_DOCUMENT_URL%" "https://x/y"
    "%SENDER%" (by decide) (by decide) (by decide) hS3
  have hR2 : ¬ "REVIEW_DOCUMENT_URL".data <:+:
      (pyRep (pyRep frag "%SENDER%" "Alice") "REVIEW_DOCUMENT_URL" "https://x/y").data :=
    pyRep_removes_pattern _ _ _ (by decide) (by decide) (by decide)
  have hR3 := pyRep_preserves_absence
    (pyRep (pyRep frag "%SENDER%" "Alice") "REVIEW_DOCUMENT_URL" "https://x/y")
    "REPLACE_WITH_AUDIO_URL" "https://x/y" "REVIEW_DOCUMENT_URL"
    (by decide) (by decide) (by decide) hR2
  have hR4 := pyRep_preserves_absence _ "%REVIEW_DOCUMENT_URL%" "https://x/y"
    "REVIEW_DOCUMENT_URL" (by decide) (by decide) (by decide) hR3
  have hA3 : ¬ "REPLACE_WITH_AUDIO_URL".data <:+:
      (pyRep (pyRep (pyRep frag "%SENDER%" "Alice") "REVIEW_DOCUMENT_URL" "https://x/y")
        "REPLACE_WITH_AUDIO_URL" "https://x/y").data :=
    pyRep_removes_pattern _ _ _ (by decide) (by decide) (by decide)
  have hA4 := pyRep_preserves_absence _ "%REVIEW_DOCUMENT_URL%" "https://x/y"
    "REPLACE_WITH_AUDIO_URL" (by decide) (by decide) (by decide) hA3
  have hP4 : ¬ "%REVIEW_DOCUMENT_URL%".data <:+:
      (pyRep (pyRep (pyRep (pyRep frag "%SENDER%" "Alice")
        "REVIEW_DOCUMENT_URL" "https://x/y")
        "REPLACE_WITH_AUDIO_URL" "https://x/y")
        "%REVIEW_DOCUMENT_URL%" "https://x/y").data :=
    pyRep_removes_pattern _ _ _ (by decide) (by decide) (by decide)
  refine ⟨hS4, hR4, hA4, hP4, ?_, ?_⟩
  · intro hocc
    have h1 : "Alice".data <:+: (pyRep frag "%SENDER%" "Alice").data :=
      pyRep_inserts _ _ _ (by decide) hocc
    have h2 := pyRep_preserves_occurrence (pyRep frag "%SENDER%" "Alice")
      "REVIEW_DOCUMENT_URL" "https://x/y" "Alice"
      (by decide) (by decide) (by decide) (by decide) (by decide) h1
    have h3 := pyRep_preserves_occurrence _ "REPLACE_WITH_AUDIO_URL" "https://x/y"
      "Alice" (by decide) (by decide) (by decide) (by decide) (by decide) h2
    exact pyRep_preserves_occurrence _ "%REVIEW_DOCUMENT_URL%" "https://x/y"
      "Alice" (by decide) (by decide) (by decide) (by decide) (by decide) h3
  · intro hocc
    have h1 : "REVIEW_DOCUMENT_URL".data <:+: (pyRep frag "%SENDER%" "Alice").data :=
      pyRep_preserves_occurrence frag "%SENDER%" "Alice" "REVIEW_DOCUMENT_URL"
        (by decide) (by decide) (by decide) (by decide) (by decide) hocc
    have h2 : "https://x/y".data <:+:
        (pyRep (pyRep frag "%SENDER%" "Alice") "REVIEW_DOCUMENT_URL" "https://x/y").data :=
      pyRep_inserts _ _ _ (by decide) h1
    have h3 := pyRep_preserves_occurrence _ "REPLACE_WITH_AUDIO_URL" "https://x/y"
      "https://x/y" (by decide) (by decide) (by decide) (by decide) (by decide) h2
    exact pyRep_preserves_occurrence _ "%REVIEW_DOCUMENT_URL%" "https://x/y"
      "https://x/y" (by decide) (by decide) (by decide) (by decide) (by decide) h3

theorem claim_C8_witness :
    ("Alice".data <:+:
      (inject_placeholders "Alice" "https://x/y"
        (extract_body_fragment
          "<html><body>Hi %SENDER%, see REVIEW_DOCUMENT_URL</body></html>")).data) ∧
    ("https://x/y".data <:+:
      (inject_placeholders "Alice" "https://x/y"
        (extract_body_fragment
          "<html><body>Hi %SENDER%, see REVIEW_DOCUMENT_URL</body></html>")).data) :=
  ⟨(claim_C8 "<html><body>Hi %SENDER%, see REVIEW_DOCUMENT_URL</body></html>").2.2.2.2.1
      (by decide),
   (claim_C8 "<html><body>Hi %SENDER%, see REVIEW_DOCUMENT_URL</body></html>").2.2.2.2.2
      (by decide)⟩

/-! ### Claim C1 (corrected) -/

/-- C1 counterexample: the pixel body served by the handler is the
hard-coded GIF, and that GIF contains no Graphic Control Extension
introducer (`0x21 0xF9`) anywhere, so it cannot mark any colour
transparent — it is an opaque white pixel, not a transparent image
(invisibility comes from the embedding tag's `display:none`). -/
theorem claim_C1_counterexample :
    (track ⟨[], [], [], [], 0, 0⟩ "nope" "ts").2.body = gifBytes ∧
    ¬ gifHasGce gifBytes := by
  refine ⟨rfl, by decide⟩

/-- C1 (amended): every request to `/track` — empty, unknown or known id —
receives the same response: status 200, content type `image/gif`,
`no-cache` headers, and a structurally valid (opaque) 1x1 GIF body; and
when the id does not match any record, the tracking store (map, action
queue, recent-replies gate) is left completely unmodified — the hit is
only logged, never turned into an HTTP error. -/
theorem claim_C1 (st : AppState) (idp ts : String) :
    (track st idp ts).2 = one_by_one_gif_response ∧
    (track st idp ts).2.status = 200 ∧
    (track st idp ts).2.contentType = "image/gif" ∧
    (track st idp ts).2.cacheControl = "no-cache, no-store, must-revalidate" ∧
    isValid1x1Gif (track st idp ts).2.body ∧
    (alookup st.tracking_map idp = none →
      (track st idp ts).1.tracking_map = st.tracking_map ∧
      (track st idp ts).1.action_queue = st.action_queue ∧
      (track st idp ts).1.recent_replies = st.recent_replies) := by
  have hresp : (track st idp ts).2 = one_by_one_gif_response := by
    rw [track]
    by_cases h : idp = ""
    · rw [if_pos h]
    · rw [if_neg h]
      cases halo : alookup st.tracking_map idp with
      | some e => simp
      | none => simp
  refine ⟨hresp, by rw [hresp]; rfl, by rw [hresp]; rfl, by rw [hresp]; rfl,
    by rw [hresp]; decide, ?_⟩
  intro hnone
  rw [track]
  by_cases h : idp = ""
  · rw [if_pos h]
    exact ⟨rfl, rfl, rfl⟩
  · rw [if_neg h, hnone]
    exact ⟨rfl, rfl, rfl⟩

theorem claim_C1_witness :
    isValid1x1Gif (track ⟨[], [], [], [], 0, 0⟩ "deadbeef" "ts").2.body ∧
    (track ⟨[], [], [], [], 0, 0⟩ "deadbeef" "ts").1.tracking_map = [] ∧
    (track ⟨[], [], [], [], 0, 0⟩ "deadbeef" "ts").1.action_queue = [] :=
  ⟨(claim_C1 ⟨[], [], [], [], 0, 0⟩ "deadbeef" "ts").2.2.2.2.1,
   ((claim_C1 ⟨[], [], [], [], 0, 0⟩ "deadbeef" "ts").2.2.2.2.2 (by decide)).1,
   ((claim_C1 ⟨[], [], [], [], 0, 0⟩ "deadbeef" "ts").2.2.2.2.2 (by decide)).2.1⟩

/-! ### Claim C4 (code bug) -/

/-- C4: the spec demands that updates never revert a later state to an
earlier one, but `_concurrent_sender` assigns `status = "Sent"`
unconditionally when a future completes.  On a record whose pixel hit was
processed first (status `Opened`), the completion update then reverts the
status to `Sent`. -/
theorem claim_C4_bug :
    (alookup ((track ⟨[("tid1", mkEntry "a@b.c" "08:00")], [], [], [], 0, 0⟩
        "tid1" "09:00").1).tracking_map "tid1").map Entry.status = some "Opened" ∧
    ((handle_result ((track ⟨[("tid1", mkEntry "a@b.c" "08:00")], [], [], [], 0, 0⟩
        "tid1" "09:00").1) "tid1" "a@b.c" (Except.ok true)).map fun s =>
          (alookup s.tracking_map "tid1").map Entry.status) = some (some "Sent") := by
  refine ⟨by decide, by decide⟩

/-! ### Claim C2 -/

/-- One pixel hit on a known id: the record's `opened_time` and `status`
are set, its replied flag ends `true`, and the action queue grows by one
exactly when the flag was `false`. -/
theorem track_known (st : AppState) (id ts : String) (e : Entry)
    (hid : id ≠ "") (he : alookup st.tracking_map id = some e) :
    (track st id ts).1.action_queue =
      st.action_queue ++ (if e.replied then [] else [(e.email, id)]) ∧
    alookup (track st id ts).1.tracking_map id =
      some { e with opened_time := ts, status := "Opened", replied := true } := by
  rw [track, if_neg hid, he]
  by_cases hr : e.replied
  · constructor
    · simp [hr]
    · simp [hr, alookup_aset_self]
  · constructor
    · simp [hr]
    · simp [hr, alookup_aset_self]

/-- C2: pixel hits on a known tracking id enqueue at most one auto-reply:
a hit that finds the replied flag `false` enqueues exactly one action and
immediately sets the flag, a hit that finds it `true` enqueues nothing,
and over any sequence of hits on that id the number of auto-reply actions
queued for it grows by exactly one when the flag started `false` (and the
sequence is nonempty), and by zero otherwise. -/
theorem claim_C2 (st : AppState) (id : String) (e : Entry)
    (hid : id ≠ "") (he : alookup st.tracking_map id = some e) :
    (e.replied = false → ∀ ts,
      (track st id ts).1.action_queue = st.action_queue ++ [(e.email, id)] ∧
      alookup (track st id ts).1.tracking_map id =
        some { e with opened_time := ts, status := "Opened", replied := true }) ∧
    (e.replied = true → ∀ ts,
      (track st id ts).1.action_queue = st.action_queue) ∧
    (∀ tss, countAuto (trackN st id tss).action_queue id =
      countAuto st.action_queue id +
        (if e.replied then 0 else if tss = [] then 0 else 1)) := by
  refine ⟨?_, ?_, ?_⟩
  · intro hr ts
    have h := track_known st id ts e hid he
    rw [hr] at h
    simpa using h
  · intro hr ts
    have h := (track_known st id ts e hid he).1
    rw [hr] at h
    simpa using h
  · intro tss
    induction tss generalizing st e with
    | nil => simp [trackN]
    | cons ts rest ih =>
      have h := track_known st id ts e hid he
      have ih2 := ih (track st id ts).1
        { e with opened_time := ts, status := "Opened", replied := true } h.2
      simp only [trackN]
      simp at ih2
      rw [ih2, h.1]
      by_cases hr : e.replied
      · simp [hr, countAuto]
      · simp [hr, countAuto, List.filter_append]

theorem claim_C2_witness :
    (track ⟨[("t1", mkEntry "a@b.c" "08:00")], [], [], [], 0, 0⟩
        "t1" "09:00").1.action_queue = [("a@b.c", "t1")] ∧
    countAuto (trackN ⟨[("t1", mkEntry "a@b.c" "08:00")], [], [], [], 0, 0⟩
        "t1" ["09:00", "09:01", "09:02"]).action_queue "t1" = 1 :=
  ⟨((claim_C2 ⟨[("t1", mkEntry "a@b.c" "08:00")], [], [], [], 0, 0⟩ "t1"
      (mkEntry "a@b.c" "08:00") (by decide) (by decide)).1 rfl "09:00").1,
   (claim_C2 ⟨[("t1", mkEntry "a@b.c" "08:00")], [], [], [], 0, 0⟩ "t1"
      (mkEntry "a@b.c" "08:00") (by decide) (by decide)).2.2
      ["09:00", "09:01", "09:02"]⟩

/-! ### Claim C3 -/

/-- The worker's rate gate: a step either skips (no send, gate state and
tracking map untouched), or sends, in which case the gate had at least the
cool-down of headroom and the reply time is recorded. -/
theorem action_worker_step_spec (st : AppState) (email tid : String) (now : Int)
    (d s : Bool) :
    ((action_worker_step st email tid now d s).2 = true →
      (alookup st.recent_replies email).getD 0 + 3600 ≤ now ∧
      (action_worker_step st email tid now d s).1.recent_replies =
        aset st.recent_replies email now) ∧
    ((action_worker_step st email tid now d s).2 = false →
      (action_worker_step st email tid now d s).1.recent_replies =
        st.recent_replies) ∧
    (now - (alookup st.recent_replies email).getD 0 < 3600 →
      (action_worker_step st email tid now d s).2 = false ∧
      (action_worker_step st email tid now d s).1.recent_replies =
        st.recent_replies ∧
      (action_worker_step st email tid now d s).1.tracking_map =
        st.tracking_map) := by
  rw [action_worker_step]
  by_cases hgate : now - (alookup st.recent_replies email).getD 0 < 3600
  · rw [if_pos hgate]
    exact ⟨fun h => by simp at h, fun _ => rfl, fun _ => ⟨rfl, rfl, rfl⟩⟩
  · rw [if_neg hgate]
    have hle : (alookup st.recent_replies email).getD 0 + 3600 ≤ now := by omega
    cases d with
    | false =>
      exact ⟨fun h => by simp at h, fun _ => rfl, fun h => absurd h hgate⟩
    | true =>
      cases s with
      | false =>
        exact ⟨fun h => by simp at h, fun _ => rfl, fun h => absurd h hgate⟩
      | true =>
        refine ⟨fun _ => ⟨hle, ?_⟩, fun h => by simp at h, fun h => absurd h hgate⟩
        simp only [if_true]
        cases halo : alookup st.tracking_map tid with
        | some e => simp
        | none => simp

/-- The recorded reply time for any address never decreases across a
worker step. -/
theorem action_worker_step_mono (st : AppState) (email tid : String) (now : Int)
    (d s : Bool) (m : String) :
    (alookup st.recent_replies m).getD 0 ≤
      (alookup (action_worker_step st email tid now d s).1.recent_replies m).getD 0 := by
  have hspec := action_worker_step_spec st email tid now d s
  cases hsent : (action_worker_step st email tid now d s).2 with
  | false => rw [(hspec.2.1 hsent)]
  | true =>
    obtain ⟨hle, hrec⟩ := hspec.1 hsent
    rw [hrec]
    by_cases hm : m = email
    · subst hm
      rw [alookup_aset_self]
      simp only [Option.getD_some]
      omega
    · rw [alookup_aset_ne _ _ _ _ (fun h => hm h.symm)]

/-- Every auto-reply actually sent while draining a queue of actions is at
least one cool-down later than the reply time recorded at the start. -/
theorem runActions_sends_lb :
    ∀ (evs : List ActionEvent) (st : AppState) (m : String) (t : Int),
      (m, t) ∈ (runActions st evs).2 →
      (alookup st.recent_replies m).getD 0 + 3600 ≤ t := by
  intro evs
  induction evs with
  | nil => intro st m t h; simp [runActions] at h
  | cons a rest ih =>
    intro st m t h
    simp only [runActions] at h
    rw [List.mem_append] at h
    rcases h with h | h
    · have hsent : (action_worker_step st a.email a.track_id a.now a.driver_ok
          a.send_ok).2 = true := by
        by_contra hn
        simp [Bool.not_eq_true] at hn
        rw [hn] at h
        simp at h
      rw [hsent] at h
      simp at h
      obtain ⟨hm, ht⟩ := h
      subst hm
      subst ht
      exact ((action_worker_step_spec st a.email a.track_id a.now a.driver_ok
        a.send_ok).1 hsent).1
    · have := ih _ m t h
      have hmono := action_worker_step_mono st a.email a.track_id a.now
        a.driver_ok a.send_ok m
      omega

/-- C3: the auto-reply worker never sends two auto-replies to the same
address within the cool-down window.  A dequeued action whose address was
replied to less than 3600 seconds before `now` (per the `recent_replies`
gate) is skipped without sending and without touching the gate or the
tracking map — the record's replied flag is never consulted; and over any
worker run, two sends to the same address are always at least 3600
seconds apart. -/
theorem claim_C3 :
    (∀ (st : AppState) (email tid : String) (now : Int) (d s : Bool),
      now - (alookup st.recent_replies email).getD 0 < 3600 →
      (action_worker_step st email tid now d s).2 = false ∧
      (action_worker_step st email tid now d s).1.recent_replies =
        st.recent_replies ∧
      (action_worker_step st email tid now d s).1.tracking_map =
        st.tracking_map) ∧
    (∀ (st : AppState) (evs : List ActionEvent),
      ((runActions st evs).2).Pairwise fun p q => p.1 = q.1 → p.2 + 3600 ≤ q.2) := by
  constructor
  · intro st email tid now d s h
    exact (action_worker_step_spec st email tid now d s).2.2 h
  · intro st evs
    induction evs generalizing st with
    | nil => simp [runActions]
    | cons a rest ih =>
      simp only [runActions]
      cases hsent : (action_worker_step st a.email a.track_id a.now a.driver_ok
          a.send_ok).2 with
      | false =>
        simpa using ih _
      | true =>
        simp only [reduceIte, List.singleton_append]
        refine List.pairwise_cons.mpr ⟨?_, ih _⟩
        intro q hq hqm
        have hlb := runActions_sends_lb rest _ q.1 q.2 (by simpa using hq)
        obtain ⟨-, hrec⟩ := (action_worker_step_spec st a.email a.track_id a.now
          a.driver_ok a.send_ok).1 hsent
        rw [hrec] at hlb
        rw [← hqm] at hlb
        rw [alookup_aset_self] at hlb
        simpa using hlb

theorem claim_C3_witness :
    (action_worker_step ⟨[], [], [("a@b.c", 1000)], [], 0, 0⟩
        "a@b.c" "t1" 2000 true true).2 = false ∧
    ((runActions ⟨[], [], [], [], 0, 0⟩
        [⟨"a@b.c", "t1", 5000, true, true⟩,
         ⟨"a@b.c", "t2", 6000, true, true⟩]).2).Pairwise
      (fun p q => p.1 = q.1 → p.2 + 3600 ≤ q.2) :=
  ⟨(claim_C3.1 ⟨[], [], [("a@b.c", 1000)], [], 0, 0⟩ "a@b.c" "t1" 2000 true true
      (by decide)).1,
   claim_C3.2 ⟨[], [], [], [], 0, 0⟩
      [⟨"a@b.c", "t1", 5000, true, true⟩, ⟨"a@b.c", "t2", 6000, true, true⟩]⟩

/-! ### Claim C5 -/

theorem alookup_aset_isSome {β : Type} (m : List (String × β)) (k k' : String)
    (v : β) (h : (alookup m k').isSome) : (alookup (aset m k v) k').isSome := by
  by_cases hk : k = k'
  · subst hk
    rw [alookup_aset_self]
    rfl
  · rw [alookup_aset_ne _ _ _ _ hk]
    exact h

/-- One completed future on a present id always yields a state (never a
`KeyError`), writing a terminal status on that id's record. -/
theorem handle_result_spec (st : AppState) (id email : String)
    (res : Except String Bool) (e : Entry)
    (he : alookup st.tracking_map id = some e) :
    ∃ st1 S, handle_result st id email res = some st1 ∧
      (S = "Sent" ∨ S = "Failed") ∧
      st1.tracking_map = aset st.tracking_map id { e with status := S } := by
  cases res with
  | ok b =>
    cases b with
    | true =>
      refine ⟨{ st with
                sent_count := st.sent_count + 1,
                tracking_map := aset st.tracking_map id { e with status := "Sent" },
                log := st.log ++ ["Successfully sent to " ++ email] },
        "Sent", ?_, Or.inl rfl, rfl⟩
      simp [handle_result, dictSetStatus, he]
    | false =>
      refine ⟨{ st with
                failed_count := st.failed_count + 1,
                tracking_map := aset st.tracking_map id { e with status := "Failed" } },
        "Failed", ?_, Or.inr rfl, rfl⟩
      simp [handle_result, dictSetStatus, he]
  | error err =>
    refine ⟨{ st with
              failed_count := st.failed_count + 1,
              tracking_map := aset st.tracking_map id { e with status := "Failed" },
              log := st.log ++ ["Failed to send to " ++ email ++ ": " ++ err] },
      "Failed", ?_, Or.inr rfl, rfl⟩
    simp [handle_result, dictSetStatus, he]

/-- The collection loop runs to completion when every task id is present,
leaving every pre-existing record in place (status unchanged or terminal)
and every task's record with a terminal status. -/
theorem concurrent_collect_spec :
    ∀ (tasks : List (String × String × Except String Bool)) (st : AppState),
      (∀ p ∈ tasks, (alookup st.tracking_map p.1).isSome) →
      ∃ st', concurrent_collect st tasks = some st' ∧
        (∀ k e, alookup st.tracking_map k = some e →
          ∃ e', alookup st'.tracking_map k = some e' ∧
            (e'.status = e.status ∨ e'.status = "Sent" ∨ e'.status = "Failed")) ∧
        (∀ p ∈ tasks, ∃ e, alookup st'.tracking_map p.1 = some e ∧
          (e.status = "Sent" ∨ e.status = "Failed")) := by
  intro tasks
  induction tasks with
  | nil =>
    intro st _
    exact ⟨st, rfl, fun k e hk => ⟨e, hk, Or.inl rfl⟩, by simp⟩
  | cons task rest ih =>
    obtain ⟨id, email, res⟩ := task
    intro st hpres
    have hid : (alookup st.tracking_map id).isSome :=
      hpres (id, email, res) (List.mem_cons_self _ _)
    obtain ⟨e, he⟩ : ∃ e, alookup st.tracking_map id = some e := by
      cases halo : alookup st.tracking_map id with
      | some e => exact ⟨e, rfl⟩
      | none => rw [halo] at hid; simp at hid
    obtain ⟨st1, S, heq, hterm, hmap⟩ := handle_result_spec st id email res e he
    have hpres1 : ∀ p ∈ rest, (alookup st1.tracking_map p.1).isSome := by
      intro p hp
      rw [hmap]
      exact alookup_aset_isSome _ _ _ _ (hpres p (List.mem_cons_of_mem _ hp))
    obtain ⟨st', hcol, hkeep, hdone⟩ := ih st1 hpres1
    refine ⟨st', ?_, ?_, ?_⟩
    · simp only [concurrent_collect, heq]
      exact hcol
    · intro k e₀ hk
      by_cases hkid : k = id
      · subst hkid
        rw [hk] at he
        obtain rfl : e₀ = e := by injection he
        have hk1 : alookup st1.tracking_map k = some { e₀ with status := S } := by
          rw [hmap]; exact alookup_aset_self _ _ _
        obtain ⟨e', he', hst⟩ := hkeep k _ hk1
        refine ⟨e', he', Or.inr ?_⟩
        rcases hst with h | h
        · rw [h]
          simpa using hterm
        · exact h
      · have hk1 : alookup st1.tracking_map k = some e₀ := by
          rw [hmap, alookup_aset_ne _ _ _ _ (fun h => hkid h.symm)]
          exact hk
        exact hkeep k e₀ hk1
    · intro p hp
      rcases List.mem_cons.mp hp with rfl | hp'
      · have hk1 : alookup st1.tracking_map id = some { e with status := S } := by
          rw [hmap]; exact alookup_aset_self _ _ _
        obtain ⟨e', he', hst⟩ := hkeep id _ hk1
        refine ⟨e', he', ?_⟩
        rcases hst with h | h
        · rw [h]
          simpa using hterm
        · exact h
      · exact hdone p hp'

/-- C5: every per-recipient send task is total at the task boundary —
`_send_single_email` always returns a boolean, never an exception into
the pool — and the collection loop converts every per-recipient outcome
(success, returned failure, or raised exception) into a terminal `Sent` /
`Failed` status on that recipient's record, processing every sibling
task. -/
theorem claim_C5 :
    (∀ env : SendEnv, send_single_email env = Except.ok true ∨
      send_single_email env = Except.ok false) ∧
    (∀ (tasks : List (String × String × Except String Bool)) (st : AppState),
      (∀ p ∈ tasks, (alookup st.tracking_map p.1).isSome) →
      ∃ st', concurrent_collect st tasks = some st' ∧
        ∀ p ∈ tasks, ∃ e, alookup st'.tracking_map p.1 = some e ∧
          (e.status = "Sent" ∨ e.status = "Failed")) := by
  constructor
  · intro env
    cases h : send_single_email_body env with
    | ok b =>
      cases b with
      | true => exact Or.inl (by simp [send_single_email, h])
      | false => exact Or.inr (by simp [send_single_email, h])
    | error err => exact Or.inr (by simp [send_single_email, h])
  · intro tasks st hpres
    obtain ⟨st', hcol, -, hdone⟩ := concurrent_collect_spec tasks st hpres
    exact ⟨st', hcol, hdone⟩

theorem claim_C5_witness :
    (send_single_email ⟨"Outlook", true, false, true, false⟩ = Except.ok true ∨
     send_single_email ⟨"Outlook", true, false, true, false⟩ = Except.ok false) ∧
    ∃ st', concurrent_collect ⟨[("t1", mkEntry "a@b.c" "08:00")], [], [], [], 0, 0⟩
        [("t1", "a@b.c", Except.error "boom")] = some st' ∧
      ∀ p ∈ [("t1", "a@b.c", (Except.error "boom" : Except String Bool))],
        ∃ e, alookup st'.tracking_map p.1 = some e ∧
          (e.status = "Sent" ∨ e.status = "Failed") :=
  ⟨claim_C5.1 ⟨"Outlook", true, false, true, false⟩,
   claim_C5.2 [("t1", "a@b.c", Except.error "boom")]
     ⟨[("t1", mkEntry "a@b.c" "08:00")], [], [], [], 0, 0⟩ (by decide)⟩

/-! ### Claim C6 -/

theorem alookup_mem {β : Type} (m : List (String × β)) (k : String) (v : β)
    (h : alookup m k = some v) : (k, v) ∈ m := by
  induction m with
  | nil => simp [alookup] at h
  | cons p rest ih =>
    obtain ⟨k', v'⟩ := p
    by_cases hk : k' = k
    · subst hk
      rw [alookup, if_pos rfl] at h
      injection h with h
      subst h
      exact List.mem_cons_self _ _
    · rw [alookup, if_neg hk] at h
      exact List.mem_cons_of_mem _ (ih h)

theorem allValid_aset (m : List (String × Entry)) (k : String) (v : Entry)
    (hm : allValid m) (hv : validStatus v.status) : allValid (aset m k v) := by
  induction m with
  | nil =>
    intro p hp
    simp [aset] at hp
    rw [hp]
    exact hv
  | cons q rest ih =>
    obtain ⟨k', v'⟩ := q
    have hm' : allValid rest := fun p hp => hm p (List.mem_cons_of_mem _ hp)
    by_cases hk : k' = k
    · intro p hp
      rw [aset, if_pos hk] at hp
      rcases List.mem_cons.mp hp with rfl | hp'
      · exact hv
      · exact hm' p hp'
    · intro p hp
      rw [aset, if_neg hk] at hp
      rcases List.mem_cons.mp hp with rfl | hp'
      · exact hm (k', v') (List.mem_cons_self _ _)
      · exact ih hm' p hp'

/-- Every mutation the running system performs on the tracking store
keeps each record's status inside the defined enum. -/
theorem applyOp_valid (st : AppState) (op : Op)
    (h : allValid st.tracking_map) : allValid (applyOp st op).tracking_map := by
  cases op with
  | pixel id ts =>
    show allValid (track st id ts).1.tracking_map
    rw [track]
    by_cases hid : id = ""
    · rw [if_pos hid]
      exact h
    · rw [if_neg hid]
      cases halo : alookup st.tracking_map id with
      | some e =>
        simp only []
        by_cases hr : e.replied
        · simp only [hr, if_true]
          exact allValid_aset _ _ _ h (Or.inr (Or.inr (Or.inl rfl)))
        · simp only [hr, if_false]
          exact allValid_aset _ _ _
            (allValid_aset _ _ _ h (Or.inr (Or.inr (Or.inl rfl))))
            (Or.inr (Or.inr (Or.inl rfl)))
      | none => exact h
  | completion id email res =>
    show allValid ((handle_result st id email res).getD st).tracking_map
    cases halo : alookup st.tracking_map id with
    | some e =>
      obtain ⟨st1, S, heq, hterm, hmap⟩ := handle_result_spec st id email res e halo
      rw [heq]
      show allValid st1.tracking_map
      rw [hmap]
      refine allValid_aset _ _ _ h ?_
      rcases hterm with rfl | rfl
      · exact Or.inr (Or.inl rfl)
      · exact Or.inr (Or.inr (Or.inr rfl))
    | none =>
      cases res with
      | ok b =>
        cases b <;> simp [handle_result, dictSetStatus, halo] <;> exact h
      | error err => simp [handle_result, dictSetStatus, halo]; exact h
  | action a =>
    show allValid (action_worker_step st a.email a.track_id a.now
      a.driver_ok a.send_ok).1.tracking_map
    rw [action_worker_step]
    by_cases hgate : a.now - (alookup st.recent_replies a.email).getD 0 < 3600
    · rw [if_pos hgate]
      exact h
    · rw [if_neg hgate]
      cases a.driver_ok with
      | false => exact h
      | true =>
        cases a.send_ok with
        | false => exact h
        | true =>
          simp only [if_true]
          cases halo : alookup st.tracking_map a.track_id with
          | some e =>
            simp only []
            refine allValid_aset _ _ _ h ?_
            show validStatus e.status
            exact h (a.track_id, e) (alookup_mem _ _ _ halo)
          | none => exact h

theorem applyOps_valid (ops : List Op) :
    ∀ st : AppState, allValid st.tracking_map →
      allValid (applyOps st ops).tracking_map := by
  induction ops with
  | nil => intro st h; exact h
  | cons op rest ih => intro st h; exact ih _ (applyOp_valid st op h)

/-- The per-recipient loop of `start_sending`, characterised: it emits one
task per recipient, adds exactly one fresh binding per recipient, leaves
other keys alone, and creates only `Queued` records. -/
theorem enqueue_spec (ts : String) :
    ∀ (pairs : List (String × String)) (m0 : List (String × Entry)),
      (pairs.map Prod.fst).Nodup →
      (∀ p ∈ pairs, alookup m0 p.1 = none) →
      allValid m0 →
      (enqueue_recipients ts pairs m0).2 = pairs ∧
      (enqueue_recipients ts pairs m0).1.length = m0.length + pairs.length ∧
      (∀ p ∈ pairs, alookup (enqueue_recipients ts pairs m0).1 p.1 =
        some (mkEntry p.2 ts)) ∧
      (∀ k, (∀ p ∈ pairs, p.1 ≠ k) →
        alookup (enqueue_recipients ts pairs m0).1 k = alookup m0 k) ∧
      allValid (enqueue_recipients ts pairs m0).1 := by
  intro pairs
  induction pairs with
  | nil =>
    intro m0 _ _ hvalid
    exact ⟨rfl, by simp [enqueue_recipients], by simp, fun k _ => rfl, hvalid⟩
  | cons pr rest ih =>
    obtain ⟨id, email⟩ := pr
    intro m0 hnodup hfresh hvalid
    have hmap : ((id, email) :: rest).map Prod.fst = id :: rest.map Prod.fst := rfl
    rw [hmap] at hnodup
    have hnd := List.nodup_cons.mp hnodup
    have hni : id ∉ rest.map Prod.fst := hnd.1
    have hne : ∀ p ∈ rest, p.1 ≠ id := by
      intro p hp hcon
      exact hni (hcon ▸ List.mem_map_of_mem Prod.fst hp)
    have hfresh' : ∀ p ∈ rest,
        alookup (aset m0 id (mkEntry email ts)) p.1 = none := by
      intro p hp
      rw [alookup_aset_ne _ _ _ _ (fun h => hne p hp h.symm)]
      exact hfresh p (List.mem_cons_of_mem _ hp)
    have hvalid' : allValid (aset m0 id (mkEntry email ts)) :=
      allValid_aset _ _ _ hvalid (Or.inl rfl)
    obtain ⟨ih1, ih2, ih3, ih4, ih5⟩ :=
      ih (aset m0 id (mkEntry email ts)) hnd.2 hfresh' hvalid'
    have hm1len : (aset m0 id (mkEntry email ts)).length = m0.length + 1 := by
      rw [aset_fresh_append _ _ _ (hfresh (id, email) (List.mem_cons_self _ _))]
      simp
    refine ⟨?_, ?_, ?_, ?_, ?_⟩
    · simp only [enqueue_recipients]
      rw [ih1]
    · simp only [enqueue_recipients]
      rw [ih2, hm1len]
      simp only [List.length_cons]
      omega
    · intro p hp
      rcases List.mem_cons.mp hp with rfl | hp'
      · simp only [enqueue_recipients]
        have hl := ih4 id hne
        rw [alookup_aset_self] at hl
        simpa using hl
      · simp only [enqueue_recipients]
        exact ih3 p hp'
    · intro k hk
      simp only [enqueue_recipients]
      rw [ih4 k fun p hp => hk p (List.mem_cons_of_mem _ hp)]
      exact alookup_aset_ne _ _ _ _ (hk (id, email) (List.mem_cons_self _ _))
    · simp only [enqueue_recipients]
      exact ih5

/-- C6: starting a batch creates exactly one `Queued` record per recipient
under its freshly minted tracking id — the map grows by exactly one
binding per recipient, each task carries its own id, records outside the
batch are untouched — and every subsequent operation on the store (pixel
hit, send completion, auto-reply step) keeps every record's status inside
the enum `{Queued, Sent, Opened, Failed}`.  Uniqueness and freshness of
the `uuid.uuid4()` stream is the `hnodup` / `hfresh` hypothesis. -/
theorem claim_C6 (pairs : List (String × String)) (m0 : List (String × Entry))
    (ts : String) (hnodup : (pairs.map Prod.fst).Nodup)
    (hfresh : ∀ p ∈ pairs, alookup m0 p.1 = none) (hvalid : allValid m0) :
    (enqueue_recipients ts pairs m0).2 = pairs ∧
    (enqueue_recipients ts pairs m0).1.length = m0.length + pairs.length ∧
    (∀ p ∈ pairs, alookup (enqueue_recipients ts pairs m0).1 p.1 =
      some (mkEntry p.2 ts)) ∧
    (∀ k, (∀ p ∈ pairs, p.1 ≠ k) →
      alookup (enqueue_recipients ts pairs m0).1 k = alookup m0 k) ∧
    allValid (enqueue_recipients ts pairs m0).1 ∧
    (∀ (ops : List Op) (st : AppState), allValid st.tracking_map →
      allValid (applyOps st ops).tracking_map) := by
  obtain ⟨h1, h2, h3, h4, h5⟩ := enqueue_spec ts pairs m0 hnodup hfresh hvalid
  exact ⟨h1, h2, h3, h4, h5, fun ops st h => applyOps_valid ops st h⟩

theorem claim_C6_witness :
    (enqueue_recipients "08:00" [("t1", "a@x"), ("t2", "b@x")] []).2 =
      [("t1", "a@x"), ("t2", "b@x")] ∧
    (enqueue_recipients "08:00" [("t1", "a@x"), ("t2", "b@x")]
      []).1.length = 0 + 2 ∧
    allValid (enqueue_recipients "08:00" [("t1", "a@x"), ("t2", "b@x")] []).1 :=
  ⟨(claim_C6 [("t1", "a@x"), ("t2", "b@x")] [] "08:00"
      (by decide) (by decide) (by decide)).1,
   (claim_C6 [("t1", "a@x"), ("t2", "b@x")] [] "08:00"
      (by decide) (by decide) (by decide)).2.1,
   (claim_C6 [("t1", "a@x"), ("t2", "b@x")] [] "08:00"
      (by decide) (by decide) (by decide)).2.2.2.2.1⟩

/-! ### Claim C9 (corrected) -/

/-- The search for the body pattern skips a prefix on which no match
starts. -/
theorem bodySearch_append_none :
    ∀ (pre R : List Char),
      (∀ i, i < pre.length → bodyAt (List.drop i (pre ++ R)) = none) →
      bodySearch (pre ++ R) = bodySearch R := by
  intro pre
  induction pre with
  | nil => intro R _; rfl
  | cons c pre' ih =>
    intro R h
    have h0 : bodyAt (c :: (pre' ++ R)) = none := by
      have := h 0 (by simp)
      simpa using this
    show bodySearch (c :: (pre' ++ R)) = bodySearch R
    rw [bodySearch, h0]
    exact ih R fun i hi => by
      have := h (i + 1) (by simp only [List.length_cons]; omega)
      simpa using this

/-- The lazy `(.*?)` scan consumes exactly the content on which the close
matcher fails, stopping at the first position where it succeeds. -/
theorem lazyContent_through (cl : List Char → Option Nat) :
    ∀ (mid R : List Char),
      (∀ j, j < mid.length → cl (List.drop j (mid ++ R)) = none) →
      (cl R).isSome = true →
      lazyContent cl (mid ++ R) = some mid := by
  intro mid
  induction mid with
  | nil =>
    intro R _ hR
    cases R with
    | nil => simp only [List.nil_append, lazyContent, hR, if_true]
    | cons c rest => simp only [List.nil_append, lazyContent, hR, if_true]
  | cons c mid' ih =>
    intro R h hR
    have h0 : cl (c :: (mid' ++ R)) = none := by
      have := h 0 (by simp)
      simpa using this
    show lazyContent cl (c :: (mid' ++ R)) = some (c :: mid')
    rw [lazyContent, h0]
    simp only [Option.isSome_none, Bool.false_eq_true, if_false]
    rw [ih R (fun j hj => by
      have := h (j + 1) (by simp only [List.length_cons]; omega)
      simpa using this) hR]
    rfl

/-- The full body pattern matches at its opening tag, capturing exactly
the content before the first closing tag. -/
theorem bodyAt_open (mid rs : List Char)
    (hmid : ∀ j, j < mid.length →
      closeTag "body".data (List.drop j (mid ++ ("</body>".data ++ rs))) = none) :
    bodyAt ("<body>".data ++ (mid ++ ("</body>".data ++ rs))) = some mid := by
  have h1 : tagMatch "<body".data
      ("<body>".data ++ (mid ++ ("</body>".data ++ rs))) = some 6 := rfl
  have h2 : List.drop 6 ("<body>".data ++ (mid ++ ("</body>".data ++ rs))) =
      mid ++ ("</body>".data ++ rs) := rfl
  rw [bodyAt, h1]
  show lazyContent (closeTag "body".data)
    (List.drop 6 ("<body>".data ++ (mid ++ ("</body>".data ++ rs)))) = some mid
  rw [h2]
  exact lazyContent_through _ mid _ hmid
    (by rw [show closeTag "body".data ("</body>".data ++ rs) = some 7 from rfl]; rfl)

theorem bodySearch_of_bodyAt (l mid : List Char) (h : bodyAt l = some mid) :
    bodySearch l = some mid := by
  cases l with
  | nil =>
    rw [show bodyAt ([] : List Char) = none from rfl] at h
    exact absurd h (by simp)
  | cons c rest => rw [bodySearch, h]

/-- A case-insensitive pattern starting with `<` cannot match at a
position whose character does not lower to `<`. -/
theorem ciPrefix_lt_false (ps l : List Char)
    (h : ∀ c ∈ l, c.toLower ≠ '<') : ciPrefix ('<' :: ps) l = false := by
  cases l with
  | nil => rfl
  | cons c rest =>
    have hc : c.toLower ≠ '<' := h c (List.mem_cons_self _ _)
    show List.isPrefixOf ('<' :: ps)
      (((c :: rest).take (ps.length + 1)).map Char.toLower) = false
    rw [List.take_succ_cons, List.map_cons, List.isPrefixOf_cons₂]
    have : ('<' == c.toLower) = false := by
      rw [beq_eq_false_iff_ne]
      exact fun he => hc he.symm
    rw [this]
    rfl

theorem tagMatch_lt_none (ps l : List Char)
    (h : ∀ c ∈ l, c.toLower ≠ '<') : tagMatch ('<' :: ps) l = none := by
  rw [tagMatch, ciPrefix_lt_false ps l h]
  rfl

/-- On input without `<`, every wrapper-stripping pass is the identity. -/
theorem subFuel_id (m : List Char → Option Nat)
    (hm : ∀ l', (∀ c ∈ l', c.toLower ≠ '<') → m l' = none) :
    ∀ (fuel : Nat) (l : List Char), (∀ c ∈ l, c.toLower ≠ '<') →
      subFuel m fuel l = l := by
  intro fuel
  induction fuel with
  | zero => intro l _; cases l <;> rfl
  | succ n ih =>
    intro l h
    cases l with
    | nil => rfl
    | cons c rest =>
      rw [subFuel, hm (c :: rest) h]
      rw [ih rest fun a ha => h a (List.mem_cons_of_mem _ ha)]

theorem bodySearch_lt_none :
    ∀ l : List Char, (∀ c ∈ l, c.toLower ≠ '<') → bodySearch l = none := by
  intro l
  induction l with
  | nil => intro _; rfl
  | cons c rest ih =>
    intro h
    have hb : bodyAt (c :: rest) = none := by
      rw [bodyAt, tagMatch_lt_none _ _ h]
    rw [bodySearch, hb]
    exact ih fun a ha => h a (List.mem_cons_of_mem _ ha)

theorem stripL_subset (l : List Char) : ∀ c ∈ stripL l, c ∈ l := by
  intro c hc
  unfold stripL at hc
  rw [List.mem_reverse] at hc
  have h1 := (List.dropWhile_sublist (l := (l.dropWhile isPySpace).reverse)
    isPySpace).subset hc
  rw [List.mem_reverse] at h1
  exact (List.dropWhile_sublist isPySpace).subset h1

/-- C9 counterexample: on an input with no body element,
`_extract_body_fragment` does not merely strip doctype / html / head
wrappers — it also deletes `<meta …>` tags, so the remainder is not
returned unchanged. -/
theorem claim_C9_counterexample :
    extract_body_fragment "A<meta x>B" = "AB" ∧
    "AB" ≠ "A<meta x>B" := by
  refine ⟨by decide, by decide⟩

/-- C9 (amended): when the (stripped) input contains a body element —
a prefix on which no body match starts, `<body>`, content on which no
closing tag starts, `</body>`, and a tail — the function returns exactly
that content, trimmed.  When the input contains no `<` at all (so no tag
and no wrapper) and carries no surrounding whitespace, it is returned
unchanged.  Otherwise the function strips doctype / html / head wrapper
tags and also meta tags and title elements, and trims: e.g. on
`A<meta x>B<title>t</title>C` it returns `ABC`. -/
theorem claim_C9 :
    (∀ (s : String) (pre mid post : List Char),
      s.data = pre ++ ("<body>".data ++ (mid ++ ("</body>".data ++ post))) →
      stripL s.data = s.data →
      (∀ i, i < pre.length →
        bodyAt (List.drop i
          (pre ++ ("<body>".data ++ (mid ++ ("</body>".data ++ post))))) = none) →
      (∀ j, j < mid.length →
        closeTag "body".data (List.drop j (mid ++ ("</body>".data ++ post))) = none) →
      extract_body_fragment s = ⟨stripL mid⟩) ∧
    (∀ s : String, (∀ c ∈ s.data, c.toLower ≠ '<') → stripL s.data = s.data →
      extract_body_fragment s = s) ∧
    extract_body_fragment "A<meta x>B<title>t</title>C" = "ABC" := by
  refine ⟨?_, ?_, by decide⟩
  · intro s pre mid post hdata hstrip hpre hmid
    have hne : s ≠ "" := by
      intro h
      rw [h] at hdata
      have hd : pre ++ ("<body>".data ++ (mid ++ ("</body>".data ++ post))) =
          ([] : List Char) := hdata.symm
      have h2 := (List.append_eq_nil.mp hd).2
      have h3 := (List.append_eq_nil.mp h2).1
      exact absurd h3 (by decide)
    rw [extract_body_fragment, if_neg hne, hstrip, hdata,
      bodySearch_append_none pre _ hpre,
      bodySearch_of_bodyAt _ mid (bodyAt_open mid post hmid)]
  · intro s hlt hstrip
    by_cases hse : s = ""
    · rw [hse]
      rfl
    · have hmd : ∀ l', (∀ c ∈ l', c.toLower ≠ '<') → matchDoctype l' = none :=
        fun l' h => tagMatch_lt_none "!doctype".data l' h
      have hmh : ∀ l', (∀ c ∈ l', c.toLower ≠ '<') → matchHtmlTag l' = none := by
        intro l' h
        rw [matchHtmlTag,
          show tagMatch "<html".data l' = none from tagMatch_lt_none "html".data l' h]
        exact tagMatch_lt_none "/html".data l' h
      have hmhd : ∀ l', (∀ c ∈ l', c.toLower ≠ '<') → matchHeadTag l' = none := by
        intro l' h
        rw [matchHeadTag,
          show tagMatch "<head".data l' = none from tagMatch_lt_none "head".data l' h]
        exact tagMatch_lt_none "/head".data l' h
      have hmme : ∀ l', (∀ c ∈ l', c.toLower ≠ '<') → matchMeta l' = none :=
        fun l' h => tagMatch_lt_none "meta".data l' h
      have hmt : ∀ l', (∀ c ∈ l', c.toLower ≠ '<') → matchTitle l' = none := by
        intro l' h
        rw [matchTitle,
          show tagMatch "<title".data l' = none from
            tagMatch_lt_none "title".data l' h]
      rw [extract_body_fragment, if_neg hse, hstrip,
        bodySearch_lt_none s.data hlt]
      show (⟨stripL (subAll matchTitle (subAll matchMeta (subAll matchHeadTag
        (subAll matchHtmlTag (subAll matchDoctype s.data)))))⟩ : String) = s
      rw [show subAll matchDoctype s.data = s.data from subFuel_id _ hmd _ _ hlt]
      rw [show subAll matchHtmlTag s.data = s.data from subFuel_id _ hmh _ _ hlt]
      rw [show subAll matchHeadTag s.data = s.data from subFuel_id _ hmhd _ _ hlt]
      rw [show subAll matchMeta s.data = s.data from subFuel_id _ hmme _ _ hlt]
      rw [show subAll matchTitle s.data = s.data from subFuel_id _ hmt _ _ hlt]
      rw [hstrip]

theorem claim_C9_witness :
    extract_body_fragment "x:<body>Hi</body>tail" = "Hi" ∧
    extract_body_fragment "plain text, no tags" = "plain text, no tags" :=
  ⟨claim_C9.1 "x:<body>Hi</body>tail" "x:".data "Hi".data "tail".data
      (by decide) (by decide) (by decide) (by decide),
   claim_C9.2.1 "plain text, no tags" (by decide) (by decide)⟩

end BulkEmail

